import Mathlib

/-!
# Verification of the cfr-rs regret-minimization solver

Shallow embedding of the cfr-rs repository's solver core in Lean 4 and proofs
about it.  Rust `f64` arithmetic is modelled with exact rationals (`ℚ`); Rust
`HashMap`s with association lists (iteration order is only ever consumed by
commutative rational sums); Rust panics and unbounded recursion with `Option`
(`none` = the execution does not return a value).  Each embedded definition
mirrors one function of the source tree, named after it.
-/

namespace CfrRs

/-- Association-list map with `Nat` keys, standing in for Rust's `HashMap`.
`lookupA` finds the first binding for a key. -/
def lookupA {α : Type} : List (Nat × α) → Nat → Option α
  | [], _ => none
  | (k, v) :: rest, key => if k = key then some v else lookupA rest key

/-- Replace the first binding for `key`, or append a fresh one (the observable
behaviour of `HashMap` insertion / `entry().or_insert_with()`). -/
def insertA {α : Type} : List (Nat × α) → Nat → α → List (Nat × α)
  | [], key, v => [(key, v)]
  | (k, w) :: rest, key, v =>
    if k = key then (k, v) :: rest else (k, w) :: insertA rest key v

theorem lookupA_insertA_self {α : Type} (m : List (Nat × α)) (k : Nat) (v : α) :
    lookupA (insertA m k v) k = some v := by
  induction m with
  | nil => simp [lookupA, insertA]
  | cons hd tl ih =>
    obtain ⟨k', w⟩ := hd
    by_cases h : k' = k
    · simp [lookupA, insertA, h]
    · simp [lookupA, insertA, h, ih]

theorem lookupA_insertA_ne {α : Type} (m : List (Nat × α)) (k k' : Nat) (v : α)
    (h : k ≠ k') : lookupA (insertA m k v) k' = lookupA m k' := by
  induction m with
  | nil => simp [lookupA, insertA, h]
  | cons hd tl ih =>
    obtain ⟨k'', w⟩ := hd
    by_cases h2 : k'' = k
    · subst h2
      simp [lookupA, insertA, h]
    · simp only [insertA, if_neg h2, lookupA]
      by_cases h3 : k'' = k'
      · simp [h3]
      · simp [h3, ih]

namespace Cfr

/-- `Node` of the exact-CFR solver (`src/cfr/src/solvers/cfr/node.rs`).
Actions are identified by the branch index they select in the game tree, and
info sets by a `Nat` key. -/
structure Node where
  regretSum : List ℚ
  strategy : List ℚ
  strategySum : List ℚ
  actions : List Nat
  infoSet : Nat
deriving Repr, DecidableEq

namespace Node

/-- `Node::new`: all three accumulator vectors start as zero vectors of the
same length as the action list. -/
def new (actions : List Nat) (infoSet : Nat) : Node :=
  { regretSum := List.replicate actions.length 0
    strategy := List.replicate actions.length 0
    strategySum := List.replicate actions.length 0
    actions := actions
    infoSet := infoSet }

/-- `Node::get_actions`. -/
def get_actions (n : Node) : List Nat := n.actions

/-- `Node::to_strategy`: regret matching plus the cumulative-strategy update,
returning the freshly computed strategy together with the mutated node.
The `else` loop of the source writes `strategy[i]` for every index of
`regret_sum`; under the length invariant (claim C9) that is exactly a map over
`regret_sum` (with unequal lengths the source indexing panics). The
`strategy_sum` loop likewise runs over equal-length vectors, i.e. `zipWith`. -/
def to_strategy (n : Node) (realizationWeight : ℚ) : List ℚ × Node :=
  let normalizingSum : ℚ := (n.regretSum.filter (fun v => 0 ≤ v)).sum
  let actionsLen := n.strategy.length
  let strategy : List ℚ :=
    if normalizingSum = 0 then
      List.replicate actionsLen (1 / (actionsLen : ℚ))
    else
      n.regretSum.map (fun reg => if 0 ≤ reg then reg / normalizingSum else 0)
  let strategySum :=
    List.zipWith (fun ss s => ss + realizationWeight * s) n.strategySum strategy
  (strategy, { n with strategy := strategy, strategySum := strategySum })

/-- `Node::to_average_strategy`. -/
def to_average_strategy (n : Node) : List ℚ :=
  let normalizingSum : ℚ := n.strategySum.sum
  if normalizingSum = 0 then
    List.replicate n.strategy.length (1 / (n.strategy.length : ℚ))
  else
    n.strategySum.map (fun s => s / normalizingSum)

/-- `Node::add_regret_sum`: `regret_sum[action_index] += opponent_prob * regret`
(an out-of-bounds index panics in Rust; `List.set`/`getD` are no-ops there and
every use below is in bounds by claim C9). -/
def add_regret_sum (n : Node) (actionIndex : Nat) (regret oppProb : ℚ) : Node :=
  { n with
    regretSum :=
      n.regretSum.set actionIndex
        (n.regretSum.getD actionIndex 0 + oppProb * regret) }

end Node

end Cfr

namespace Mccfr

/-- `Node` of the external-sampling MCCFR solver
(`src/cfr/src/solvers/mccfr_external_sampling/node.rs`). -/
structure Node where
  regretSum : List ℚ
  strategySum : List ℚ
  strategy : List ℚ
  actions : List Nat
deriving Repr, DecidableEq

namespace Node

/-- `Node::new`. -/
def new (actions : List Nat) : Node :=
  { actions := actions
    regretSum := List.replicate actions.length 0
    strategySum := List.replicate actions.length 0
    strategy := List.replicate actions.length 0 }

/-- `Node::update_strategy_sum`: `strategy_sum[i] += strategy[i]` for every
index of `strategy` (equal-length vectors under claim C9, hence `zipWith`). -/
def update_strategy_sum (n : Node) : Node :=
  { n with
    strategySum := List.zipWith (fun ss p => ss + p) n.strategySum n.strategy }

/-- `Node::regret_matching`: recompute `strategy` from the positive part of
`regret_sum`.  The source first accumulates `sum` over `max(regret, 0)`, then
either `fill`s the strategy with `1 / regret_sum.len()` or overwrites every
entry with `max(regret, 0) / sum`; under the length invariant (claim C9) the
overwrite is a map over `regret_sum`. -/
def regret_matching (n : Node) : Node :=
  let sum : ℚ := n.regretSum.foldl (fun acc r => acc + max r 0) 0
  let strategy : List ℚ :=
    if sum ≤ 0 then
      List.replicate n.strategy.length (1 / (n.regretSum.length : ℚ))
    else
      n.regretSum.map (fun r => max r 0 / sum)
  { n with strategy := strategy }

/-- `Node::to_average_strategy`. -/
def to_average_strategy (n : Node) : List ℚ :=
  let normalizingSum : ℚ := n.strategySum.sum
  if normalizingSum = 0 then
    List.replicate n.strategySum.length (1 / (n.strategySum.length : ℚ))
  else
    n.strategySum.map (fun s => s / normalizingSum)

end Node

end Mccfr

/-! ## Regret-matching arithmetic lemmas -/

theorem filter_nonneg_sum_nonneg (l : List ℚ) :
    0 ≤ (l.filter (fun v => 0 ≤ v)).sum := by
  apply List.sum_nonneg
  intro x hx
  exact of_decide_eq_true (List.mem_filter.mp hx).2

theorem sum_map_regret_div (l : List ℚ) (s : ℚ) :
    (l.map (fun reg => if 0 ≤ reg then reg / s else 0)).sum
      = (l.filter (fun v => 0 ≤ v)).sum / s := by
  induction l with
  | nil => simp
  | cons hd tl ih =>
    by_cases h : 0 ≤ hd
    · simp [List.filter_cons, h, ih, add_div]
    · simp [List.filter_cons, h, ih]

theorem filter_nonneg_sum_eq_zero (l : List ℚ) (h : ∀ r ∈ l, r ≤ 0) :
    (l.filter (fun v => 0 ≤ v)).sum = 0 := by
  apply List.sum_eq_zero
  intro x hx
  obtain ⟨hmem, hpred⟩ := List.mem_filter.mp hx
  exact le_antisymm (h x hmem) (of_decide_eq_true hpred)

theorem sum_replicate_inv (k : Nat) (hk : k ≠ 0) :
    (List.replicate k (1 / (k : ℚ))).sum = 1 := by
  rw [List.sum_replicate, nsmul_eq_mul]
  rw [mul_one_div, div_self]
  exact_mod_cast hk

theorem foldl_max_add (l : List ℚ) (a : ℚ) :
    l.foldl (fun acc r => acc + max r 0) a = a + (l.map (fun r => max r 0)).sum := by
  induction l generalizing a with
  | nil => simp
  | cons hd tl ih =>
    simp only [List.foldl_cons, List.map_cons, List.sum_cons, ih]
    ring

theorem sum_map_max_nonneg (l : List ℚ) : 0 ≤ (l.map (fun r => max r 0)).sum := by
  apply List.sum_nonneg
  intro x hx
  obtain ⟨r, _, hr⟩ := List.mem_map.mp hx
  exact hr ▸ le_max_right r 0

theorem sum_map_max_div (l : List ℚ) (s : ℚ) :
    (l.map (fun r => max r 0 / s)).sum = (l.map (fun r => max r 0)).sum / s := by
  induction l with
  | nil => simp
  | cons hd tl ih =>
    simp only [List.map_cons, List.sum_cons, ih]
    rw [add_div]

theorem sum_map_max_eq_zero (l : List ℚ) (h : ∀ r ∈ l, r ≤ 0) :
    (l.map (fun r => max r 0)).sum = 0 := by
  apply List.sum_eq_zero
  intro x hx
  obtain ⟨r, hr, hx'⟩ := List.mem_map.mp hx
  subst hx'
  exact max_eq_right (h r hr)

/-- C1: for every information-set node with a non-empty action list, the
current strategy produced by regret matching (`Node::to_strategy` in the exact
CFR node, `Node::regret_matching` in the MCCFR node) has every entry `≥ 0` and
entries summing to `1`; and if every entry of `regret_sum` is `≤ 0`, the
produced strategy is exactly uniform, every entry equal to `1/|actions|`.
(The length hypotheses are the vector-length invariant of claim C9, with
`|actions| = |regret_sum|` on both nodes.) -/
theorem regret_matching_yields_distribution
    (n : Cfr.Node) (m : Mccfr.Node) (w : ℚ)
    (hn : n.strategy.length = n.regretSum.length) (hn0 : n.regretSum ≠ [])
    (hm : m.strategy.length = m.regretSum.length) (hm0 : m.regretSum ≠ []) :
    (∀ x ∈ (Cfr.Node.to_strategy n w).1, 0 ≤ x) ∧
    (Cfr.Node.to_strategy n w).1.sum = 1 ∧
    ((∀ r ∈ n.regretSum, r ≤ 0) →
      (Cfr.Node.to_strategy n w).1
        = List.replicate n.regretSum.length (1 / (n.regretSum.length : ℚ))) ∧
    (∀ x ∈ (Mccfr.Node.regret_matching m).strategy, 0 ≤ x) ∧
    (Mccfr.Node.regret_matching m).strategy.sum = 1 ∧
    ((∀ r ∈ m.regretSum, r ≤ 0) →
      (Mccfr.Node.regret_matching m).strategy
        = List.replicate m.regretSum.length (1 / (m.regretSum.length : ℚ))) := by
  have hnlen : n.regretSum.length ≠ 0 := fun h => hn0 (List.eq_nil_of_length_eq_zero h)
  have hmlen : m.regretSum.length ≠ 0 := fun h => hm0 (List.eq_nil_of_length_eq_zero h)
  refine ⟨?_, ?_, ?_, ?_, ?_, ?_⟩
  · -- exact-CFR node: all entries nonnegative
    intro x hx
    simp only [Cfr.Node.to_strategy] at hx
    by_cases h : (n.regretSum.filter (fun v => 0 ≤ v)).sum = 0
    · rw [if_pos h] at hx
      have := List.eq_of_mem_replicate hx
      subst this
      positivity
    · rw [if_neg h] at hx
      obtain ⟨r, _, hr⟩ := List.mem_map.mp hx
      subst hr
      by_cases h2 : 0 ≤ r
      · rw [if_pos h2]
        have hpos : 0 < (n.regretSum.filter (fun v => 0 ≤ v)).sum :=
          lt_of_le_of_ne (filter_nonneg_sum_nonneg _) (Ne.symm h)
        positivity
      · rw [if_neg h2]
  · -- exact-CFR node: entries sum to one
    simp only [Cfr.Node.to_strategy]
    by_cases h : (n.regretSum.filter (fun v => 0 ≤ v)).sum = 0
    · rw [if_pos h]
      exact sum_replicate_inv _ (hn ▸ hnlen)
    · rw [if_neg h, sum_map_regret_div, div_self h]
  · -- exact-CFR node: all-nonpositive regrets give the uniform strategy
    intro hall
    simp only [Cfr.Node.to_strategy]
    rw [if_pos (filter_nonneg_sum_eq_zero _ hall), hn]
  · -- MCCFR node: all entries nonnegative
    intro x hx
    simp only [Mccfr.Node.regret_matching, foldl_max_add, zero_add] at hx
    by_cases h : (m.regretSum.map (fun r => max r 0)).sum ≤ 0
    · rw [if_pos h] at hx
      have := List.eq_of_mem_replicate hx
      subst this
      positivity
    · rw [if_neg h] at hx
      obtain ⟨r, _, hr⟩ := List.mem_map.mp hx
      subst hr
      have hpos : 0 < (m.regretSum.map (fun r => max r 0)).sum := lt_of_not_le h
      have : (0 : ℚ) ≤ max r 0 := le_max_right r 0
      positivity
  · -- MCCFR node: entries sum to one
    simp only [Mccfr.Node.regret_matching, foldl_max_add, zero_add]
    by_cases h : (m.regretSum.map (fun r => max r 0)).sum ≤ 0
    · rw [if_pos h, hm]
      exact sum_replicate_inv _ hmlen
    · rw [if_neg h, sum_map_max_div, div_self]
      exact ne_of_gt (lt_of_not_le h)
  · -- MCCFR node: all-nonpositive regrets give the uniform strategy
    intro hall
    simp only [Mccfr.Node.regret_matching, foldl_max_add, zero_add]
    rw [if_pos (le_of_eq (sum_map_max_eq_zero _ hall)), hm]

/-- Concrete nodes used to instantiate hypotheses of proved theorems. -/
def nodeC1cfr : Cfr.Node :=
  { regretSum := [-2, 3, 0]
    strategy := [0, 0, 0]
    strategySum := [0, 0, 0]
    actions := [0, 1, 2]
    infoSet := 5 }

def nodeC1mccfr : Mccfr.Node :=
  { regretSum := [-1, -4]
    strategySum := [0, 0]
    strategy := [0, 0]
    actions := [0, 1] }

theorem regret_matching_yields_distribution_witness :
    (∀ x ∈ (Cfr.Node.to_strategy nodeC1cfr 1).1, 0 ≤ x) ∧
    (Cfr.Node.to_strategy nodeC1cfr 1).1.sum = 1 ∧
    ((∀ r ∈ nodeC1cfr.regretSum, r ≤ 0) →
      (Cfr.Node.to_strategy nodeC1cfr 1).1
        = List.replicate nodeC1cfr.regretSum.length
            (1 / (nodeC1cfr.regretSum.length : ℚ))) ∧
    (∀ x ∈ (Mccfr.Node.regret_matching nodeC1mccfr).strategy, 0 ≤ x) ∧
    (Mccfr.Node.regret_matching nodeC1mccfr).strategy.sum = 1 ∧
    ((∀ r ∈ nodeC1mccfr.regretSum, r ≤ 0) →
      (Mccfr.Node.regret_matching nodeC1mccfr).strategy
        = List.replicate nodeC1mccfr.regretSum.length
            (1 / (nodeC1mccfr.regretSum.length : ℚ))) :=
  regret_matching_yields_distribution nodeC1cfr nodeC1mccfr 1
    (by decide) (by decide) (by decide) (by decide)

/-! ## The evaluator's `max_index` and the strategy lookup implementations
(`src/cfr/src/eval.rs`, `src/cfr/src/solvers/cfr/mod.rs`) -/

/-- Inner fold of `max_index`: Rust's `Iterator::max_by` keeps the current
maximum and replaces it whenever the next element compares greater **or
equal**, so among equally-maximal elements the last one wins. -/
def maxIndexGo (bi : Nat) (bv : ℚ) (i : Nat) : List ℚ → Nat
  | [] => bi
  | v :: rest =>
    if bv ≤ v then maxIndexGo i v (i + 1) rest else maxIndexGo bi bv (i + 1) rest

/-- `max_index` (`src/cfr/src/eval.rs:27`):
`values.iter().enumerate().max_by(|(_i,a),(_j,b)| a.total_cmp(b)).map(|(i,_)| i).unwrap()`.
The `unwrap` panics on an empty slice (`none`). -/
def max_index (values : List ℚ) : Option Nat :=
  match values with
  | [] => none
  | v :: rest => some (maxIndexGo 0 v 1 rest)

/-- `best_response_utils_to_pure_strategy` (`src/cfr/src/eval.rs:31`): turn each
info set's action-utility vector into the one-hot vector at `max_index`
(`vec![0.0; utils.len()]` with `pure_strategy[index] = 1.0`). -/
def best_response_utils_to_pure_strategy :
    List (Nat × List ℚ) → Option (List (Nat × List ℚ))
  | [] => some []
  | (k, utils) :: rest =>
    match max_index utils, best_response_utils_to_pure_strategy rest with
    | some i, some tl => some ((k, (List.replicate utils.length 0).set i 1) :: tl)
    | _, _ => none

theorem maxIndexGo_spec (rest : List ℚ) (bi i : Nat) (bv : ℚ) :
    (maxIndexGo bi bv i rest = bi ∧ ∀ k, k < rest.length → rest.getD k 0 < bv) ∨
    (∃ k, k < rest.length ∧ maxIndexGo bi bv i rest = i + k ∧
      bv ≤ rest.getD k 0 ∧
      (∀ k2, k2 < rest.length → rest.getD k2 0 ≤ rest.getD k 0) ∧
      (∀ k2, k < k2 → k2 < rest.length → rest.getD k2 0 < rest.getD k 0)) := by
  induction rest generalizing bi i bv with
  | nil => exact Or.inl ⟨rfl, by intro k hk; simp at hk⟩
  | cons x rs ih =>
    by_cases hx : bv ≤ x
    · rw [show maxIndexGo bi bv i (x :: rs) = maxIndexGo i x (i + 1) rs from
        by rw [maxIndexGo]; rw [if_pos hx]]
      rcases ih i (i + 1) x with ⟨heq, hlt⟩ | ⟨k, hk, heq, hle, hmax, hstrict⟩
      · refine Or.inr ⟨0, by simp, by simpa using heq, by simpa using hx, ?_, ?_⟩
        · intro k2 hk2
          match k2 with
          | 0 => simp
          | k2 + 1 =>
            simp only [List.getD_cons_succ, List.getD_cons_zero]
            exact le_of_lt (hlt k2 (by simpa using hk2))
        · intro k2 h0 hk2
          match k2 with
          | 0 => omega
          | k2 + 1 =>
            simp only [List.getD_cons_succ, List.getD_cons_zero]
            exact hlt k2 (by simpa using hk2)
      · refine Or.inr ⟨k + 1, by simpa using hk, by rw [heq]; omega, ?_, ?_, ?_⟩
        · simp only [List.getD_cons_succ]
          exact le_trans hx hle
        · intro k2 hk2
          match k2 with
          | 0 =>
            simp only [List.getD_cons_zero, List.getD_cons_succ]
            exact hle
          | k2 + 1 =>
            simp only [List.getD_cons_succ]
            exact hmax k2 (by simpa using hk2)
        · intro k2 hgt hk2
          match k2 with
          | 0 => omega
          | k2 + 1 =>
            simp only [List.getD_cons_succ]
            exact hstrict k2 (by omega) (by simpa using hk2)
    · rw [show maxIndexGo bi bv i (x :: rs) = maxIndexGo bi bv (i + 1) rs from
        by rw [maxIndexGo]; rw [if_neg hx]]
      rcases ih bi (i + 1) bv with ⟨heq, hlt⟩ | ⟨k, hk, heq, hle, hmax, hstrict⟩
      · refine Or.inl ⟨heq, ?_⟩
        intro k2 hk2
        match k2 with
        | 0 => simpa using lt_of_not_le hx
        | k2 + 1 =>
          simp only [List.getD_cons_succ]
          exact hlt k2 (by simpa using hk2)
      · refine Or.inr ⟨k + 1, by simpa using hk, by rw [heq]; omega, ?_, ?_, ?_⟩
        · simp only [List.getD_cons_succ]
          exact hle
        · intro k2 hk2
          match k2 with
          | 0 =>
            simp only [List.getD_cons_zero, List.getD_cons_succ]
            exact le_trans (le_of_lt (lt_of_not_le hx)) hle
          | k2 + 1 =>
            simp only [List.getD_cons_succ]
            exact hmax k2 (by simpa using hk2)
        · intro k2 hgt hk2
          match k2 with
          | 0 => omega
          | k2 + 1 =>
            simp only [List.getD_cons_succ]
            exact hstrict k2 (by omega) (by simpa using hk2)

/-- C6 (counterexample): the claim says that when several actions tie for the
exact maximum utility, `max_index` picks the **first** in enumeration order —
for `[1, 1]` that would be index `0` and a one-hot pure strategy `[1, 0]`.
The code (`Iterator::max_by`) returns the **last** maximal element, index `1`,
and the pure strategy `[0, 1]`. -/
theorem max_index_tie_counterexample :
    max_index [(1 : ℚ), 1] = some 1 ∧ max_index [(1 : ℚ), 1] ≠ some 0 ∧
    best_response_utils_to_pure_strategy [(3, [(1 : ℚ), 1])]
      = some [(3, [0, 1])] := by
  refine ⟨?_, ?_, ?_⟩ <;> decide

/-- C6 (amended): whenever several actions of the best-responding player share
the exact maximum expected utility, the **last** such action in enumeration
order is chosen (the greatest index among the maxima): `max_index` — used both
to pick the action recursed into at the best responder's decision nodes and to
build the one-hot pure strategy — returns an in-bounds index carrying the
maximum value, and every strictly later index carries a strictly smaller
value. -/
theorem max_index_last_argmax (l : List ℚ) (i : Nat) (h : max_index l = some i) :
    i < l.length ∧ (∀ j, j < l.length → l.getD j 0 ≤ l.getD i 0) ∧
    (∀ j, i < j → j < l.length → l.getD j 0 < l.getD i 0) := by
  match l with
  | [] => simp [max_index] at h
  | v :: rest =>
    simp only [max_index, Option.some_inj] at h
    rcases maxIndexGo_spec rest 0 1 v with ⟨heq, hlt⟩ | ⟨k, hk, heq, hle, hmax, hstrict⟩
    · have hi : i = 0 := by rw [← h, heq]
      subst hi
      refine ⟨by simp, ?_, ?_⟩
      · intro j hj
        match j with
        | 0 => exact le_refl _
        | j + 1 =>
          simp only [List.getD_cons_succ, List.getD_cons_zero]
          exact le_of_lt (hlt j (by simpa using hj))
      · intro j h0 hj
        match j with
        | 0 => omega
        | j + 1 =>
          simp only [List.getD_cons_succ, List.getD_cons_zero]
          exact hlt j (by simpa using hj)
    · have hi : i = k + 1 := by rw [← h, heq]; omega
      subst hi
      refine ⟨by simp; omega, ?_, ?_⟩
      · intro j hj
        match j with
        | 0 =>
          simp only [List.getD_cons_zero, List.getD_cons_succ]
          exact hle
        | j + 1 =>
          simp only [List.getD_cons_succ]
          exact hmax j (by simpa using hj)
      · intro j hgt hj
        match j with
        | 0 => omega
        | j + 1 =>
          simp only [List.getD_cons_succ]
          exact hstrict j (by omega) (by simpa using hj)

theorem max_index_last_argmax_witness :
    max_index [(1 : ℚ), 1] = some 1 ∧
    (1 < ([(1 : ℚ), 1]).length ∧
      (∀ j, j < ([(1 : ℚ), 1]).length →
        ([(1 : ℚ), 1]).getD j 0 ≤ ([(1 : ℚ), 1]).getD 1 0) ∧
      (∀ j, 1 < j → j < ([(1 : ℚ), 1]).length →
        ([(1 : ℚ), 1]).getD j 0 < ([(1 : ℚ), 1]).getD 1 0)) :=
  ⟨by decide, max_index_last_argmax [(1 : ℚ), 1] 1 (by decide)⟩

/-! ## Strategy lookups (C8, C10) -/

/-- The `Strategy` trait's provided method `safe_get_strategy`
(`src/cfr/src/eval.rs:19`): fall back to the uniform distribution when
`get_strategy` returns `None`.  The abstract `get_strategy` method is a
function argument. -/
def safe_get_strategy (get : Nat → Option (List ℚ)) (actionsLen : Nat)
    (infoSet : Nat) : List ℚ :=
  match get infoSet with
  | some s => s
  | none => List.replicate actionsLen (1 / (actionsLen : ℚ))

/-- `impl Strategy for HashMap<InfoSet, Vec<f64>>` (`src/cfr/src/eval.rs:46`):
`Some(self.get(info_set).unwrap().clone())` — a present key yields
`Some(stored)`, an absent key makes the `unwrap` panic (`Except.error`). -/
def hashmap_get_strategy (table : List (Nat × List ℚ)) (infoSet : Nat) :
    Except Unit (Option (List ℚ)) :=
  match lookupA table infoSet with
  | some v => Except.ok (some v)
  | none => Except.error ()

/-- `safe_get_strategy` specialised to the `HashMap` implementation, with the
panic of the inner `unwrap` propagated. -/
def hashmap_safe_get_strategy (table : List (Nat × List ℚ)) (actionsLen : Nat)
    (infoSet : Nat) : Except Unit (List ℚ) :=
  match hashmap_get_strategy table infoSet with
  | Except.error e => Except.error e
  | Except.ok none => Except.ok (List.replicate actionsLen (1 / (actionsLen : ℚ)))
  | Except.ok (some s) => Except.ok s

/-- `impl Strategy for Trainer` (`src/cfr/src/solvers/cfr/mod.rs:202`):
`self.nodes.get(info_set).unwrap().to_average_strategy()` — the `unwrap`
panics (`Except.error`) when the trainer holds no node for the info set. -/
def trainer_get_strategy (nodes : List (Nat × Cfr.Node)) (infoSet : Nat) :
    Except Unit (List ℚ) :=
  match lookupA nodes infoSet with
  | some n => Except.ok (Cfr.Node.to_average_strategy n)
  | none => Except.error ()

/-- C8 (counterexample): querying the exact-CFR trainer's `get_strategy` for an
info set it never visited (here: a freshly constructed trainer with an empty
node map) is **not** recoverable — the `unwrap` panics (`Except.error`) instead
of producing `None` or a uniform distribution. -/
theorem trainer_get_strategy_panics_counterexample :
    trainer_get_strategy [] 0 = Except.error () := rfl

/-- C8 (amended): the two lookup paths behave differently on a never-visited
info set.  The trait-level `safe_get_strategy` wrapper is recoverable: when
`get_strategy` returns `None` it yields the uniform distribution `1/n` over
the `n` legal actions.  But the exact-CFR `Trainer`'s own `get_strategy`
implementation fails fast: it panics (`Except.error`) on an info set absent
from its node map. -/
theorem unvisited_info_set_lookup (get : Nat → Option (List ℚ))
    (nodes : List (Nat × Cfr.Node)) (len i j : Nat)
    (hget : get i = none) (hnodes : lookupA nodes j = none) :
    safe_get_strategy get len i = List.replicate len (1 / (len : ℚ)) ∧
    trainer_get_strategy nodes j = Except.error () := by
  constructor
  · simp [safe_get_strategy, hget]
  · simp [trainer_get_strategy, hnodes]

theorem unvisited_info_set_lookup_witness :
    safe_get_strategy (fun _ => none) 2 0 = List.replicate 2 (1 / (2 : ℚ)) ∧
    trainer_get_strategy [] 0 = Except.error () :=
  unvisited_info_set_lookup (fun _ => none) [] 2 0 0 rfl rfl

/-- C10: the `HashMap`-backed `Strategy` implementation never returns `None`:
a present key yields `Some` of the stored distribution, an absent key panics
(the `unwrap`) instead of returning `None`, and consequently
`safe_get_strategy`'s uniform fallback is unreachable for table-backed
strategies — the composition either returns the stored vector or panics. -/
theorem hashmap_get_strategy_never_none (table : List (Nat × List ℚ))
    (len i : Nat) :
    (∀ v, lookupA table i = some v →
      hashmap_get_strategy table i = Except.ok (some v)) ∧
    (lookupA table i = none → hashmap_get_strategy table i = Except.error ()) ∧
    hashmap_get_strategy table i ≠ Except.ok none ∧
    hashmap_safe_get_strategy table len i
      = (match lookupA table i with
         | some v => Except.ok v
         | none => Except.error ()) := by
  refine ⟨?_, ?_, ?_, ?_⟩
  · intro v hv
    simp [hashmap_get_strategy, hv]
  · intro hv
    simp [hashmap_get_strategy, hv]
  · intro h
    cases hv : lookupA table i <;> simp [hashmap_get_strategy, hv] at h
  · cases hv : lookupA table i <;>
      simp [hashmap_safe_get_strategy, hashmap_get_strategy, hv]

theorem hashmap_get_strategy_never_none_witness :
    hashmap_get_strategy [(7, [(1 : ℚ)])] 7 = Except.ok (some [(1 : ℚ)]) ∧
    hashmap_get_strategy [] 7 = Except.error () :=
  ⟨(hashmap_get_strategy_never_none [(7, [(1 : ℚ)])] 1 7).1 [(1 : ℚ)] (by decide),
    (hashmap_get_strategy_never_none [] 1 7).2.1 (by decide)⟩

/-! ## Game trees and the exact CFR trainer (`src/cfr/src/solvers/cfr/mod.rs`)

The abstract `Game`/`State` interface is embedded as a finite game tree: a
state is a tree node, `with_action(i)` selects branch `i` of a decision node
(so `list_legal_actions` is `range branches.length`),
`list_legal_chance_actions` pairs each chance branch with its probability,
`get_payouts` labels terminals, and `to_info_set` labels decision nodes with a
`Nat` key.  Decision players are `Fin 2`: `PlayerId::Player(i)` with `i ≥ 2`
makes `opponent()`/indexing panic in every code path the claims are about, and
`PlayerId::Chance` is the `chance` constructor. -/

inductive GameTree where
  | terminal (payouts : ℚ × ℚ)
  | chance (branches : List (ℚ × GameTree))
  | decision (player : Fin 2) (infoSet : Nat) (branches : List GameTree)

/-- `PlayerId::opponent` restricted to concrete players: `0 ↔ 1`. -/
def opponentF (p : Fin 2) : Fin 2 := ⟨1 - p.val, by omega⟩

/-- Index a two-entry `[f64; 2]` array (`probs[player.index()]`). -/
def getp (ap : ℚ × ℚ) (p : Fin 2) : ℚ := if p.val = 0 then ap.1 else ap.2

/-- `probs[player.index()] *= q` on a two-entry array. -/
def mulp (ap : ℚ × ℚ) (p : Fin 2) (q : ℚ) : ℚ × ℚ :=
  if p.val = 0 then (ap.1 * q, ap.2) else (ap.1, ap.2 * q)

/-- The exact-CFR trainer's node storage `HashMap<InfoSet, Node>`. -/
abbrev NodeMap := List (Nat × Cfr.Node)

/-- Chance-node loop of `Trainer::cfr`: scale both reach probabilities by the
branch probability, recurse, and accumulate `node_util += prob * action_util`
componentwise. -/
def cfrChanceLoop
    (recurse : GameTree → NodeMap → ℚ × ℚ → Option ((ℚ × ℚ) × NodeMap)) :
    List (ℚ × GameTree) → NodeMap → ℚ × ℚ → ℚ × ℚ →
    Option ((ℚ × ℚ) × NodeMap)
  | [], m, _, acc => some (acc, m)
  | (prob, child) :: rest, m, ap, acc =>
    match recurse child m (ap.1 * prob, ap.2 * prob) with
    | none => none
    | some (u, m') =>
      cfrChanceLoop recurse rest m' ap (acc.1 + prob * u.1, acc.2 + prob * u.2)

/-- Decision-node action loop of `Trainer::cfr`: for each stored action (in
lockstep with the strategy vector), scale the acting player's reach
probability by the action probability, recurse, record
`player_action_utils[i] = action_util[player]` and accumulate
`node_util += action_prob * action_util`.  A missing branch (`with_action` on
an action the state lacks) or an exhausted strategy vector (`strategy[i]` out
of bounds) is a panic, `none`. -/
def cfrActionLoop
    (recurse : GameTree → NodeMap → ℚ × ℚ → Option ((ℚ × ℚ) × NodeMap))
    (player : Fin 2) (branches : List GameTree) :
    List Nat → List ℚ → NodeMap → ℚ × ℚ → ℚ × ℚ →
    Option (List ℚ × (ℚ × ℚ) × NodeMap)
  | [], _, m, _, acc => some ([], acc, m)
  | act :: acts, strat, m, ap, acc =>
    match strat with
    | [] => none
    | actionProb :: strat' =>
      match branches[act]? with
      | none => none
      | some child =>
        match recurse child m (mulp ap player actionProb) with
        | none => none
        | some (u, m') =>
          match cfrActionLoop recurse player branches acts strat' m' ap
              (acc.1 + actionProb * u.1, acc.2 + actionProb * u.2) with
          | none => none
          | some (utils, nodeUtil, m'') =>
            some (getp u player :: utils, nodeUtil, m'')

/-- Regret-update loop of `Trainer::cfr`:
`regret_sum[i] += opponent_prob * (player_action_utils[i] - node_util[player])`
for every action index `i`, via `Node::add_regret_sum`. -/
def cfrRegretLoop (node : Cfr.Node) (utils : List ℚ) (nodeUtilP oppProb : ℚ)
    (i : Nat) : Cfr.Node :=
  match utils with
  | [] => node
  | u :: us =>
    cfrRegretLoop (node.add_regret_sum i (u - nodeUtilP) oppProb) us
      nodeUtilP oppProb (i + 1)

/-- `self.nodes.entry(info_set).or_insert_with(|| Node::new(actions, ...))`. -/
def cfrFetchNode (m : NodeMap) (infoSet : Nat) (branches : List GameTree) :
    Cfr.Node :=
  match lookupA m infoSet with
  | some n => n
  | none => Cfr.Node.new (List.range branches.length) infoSet

/-- `Trainer::cfr` (`src/cfr/src/solvers/cfr/mod.rs:90-152`), with explicit
recursion fuel (`none` = the execution does not return: recursion past the
fuel, a panic, or the always-on `assert_gt!(actions_len, 0)`). -/
def cfr : Nat → GameTree → NodeMap → ℚ × ℚ → Option ((ℚ × ℚ) × NodeMap)
  | 0, _, _, _ => none
  | _ + 1, GameTree.terminal p, m, _ => some (p, m)
  | fuel + 1, GameTree.chance branches, m, ap =>
    cfrChanceLoop (cfr fuel) branches m ap (0, 0)
  | fuel + 1, GameTree.decision player infoSet branches, m, ap =>
    let node := cfrFetchNode m infoSet branches
    if node.get_actions.length = 0 then none
    else
      match cfrActionLoop (cfr fuel) player branches node.get_actions
          (Cfr.Node.to_strategy node (getp ap player)).1
          (insertA m infoSet (Cfr.Node.to_strategy node (getp ap player)).2)
          ap (0, 0) with
      | none => none
      | some (utils, nodeUtil, m3) =>
        match lookupA m3 infoSet with
        | none => none
        | some node3 =>
          some (nodeUtil,
            insertA m3 infoSet
              (cfrRegretLoop node3 utils (getp nodeUtil player)
                (getp ap (opponentF player)) 0))

theorem getD_set_self (l : List ℚ) (i : Nat) (a : ℚ) (h : i < l.length) :
    (l.set i a).getD i 0 = a := by
  rw [List.getD_eq_getElem?_getD, List.getElem?_set_eq_of_lt a h]
  rfl

theorem getD_set_ne (l : List ℚ) (i j : Nat) (a : ℚ) (h : i ≠ j) :
    (l.set i a).getD j 0 = l.getD j 0 := by
  rw [List.getD_eq_getElem?_getD, List.getD_eq_getElem?_getD,
    List.getElem?_set_ne h]

/-- What the regret loop does to the node, pointwise: indices below the start
index are untouched, and index `start + k` gains
`opponent_prob * (utils[k] - node_util[player])`. -/
theorem cfrRegretLoop_spec (utils : List ℚ) (n : Cfr.Node) (nuP oppProb : ℚ)
    (st : Nat) :
    (cfrRegretLoop n utils nuP oppProb st).actions = n.actions ∧
    (cfrRegretLoop n utils nuP oppProb st).strategy = n.strategy ∧
    (cfrRegretLoop n utils nuP oppProb st).strategySum = n.strategySum ∧
    (cfrRegretLoop n utils nuP oppProb st).infoSet = n.infoSet ∧
    (cfrRegretLoop n utils nuP oppProb st).regretSum.length
      = n.regretSum.length ∧
    (∀ j, j < st →
      (cfrRegretLoop n utils nuP oppProb st).regretSum.getD j 0
        = n.regretSum.getD j 0) ∧
    (∀ k, k < utils.length → st + utils.length ≤ n.regretSum.length →
      (cfrRegretLoop n utils nuP oppProb st).regretSum.getD (st + k) 0
        = n.regretSum.getD (st + k) 0 + oppProb * (utils.getD k 0 - nuP)) := by
  induction utils generalizing n st with
  | nil =>
    exact ⟨rfl, rfl, rfl, rfl, rfl, fun j _ => rfl, fun k hk _ => by simp at hk⟩
  | cons u us ih =>
    have step :
        cfrRegretLoop n (u :: us) nuP oppProb st
          = cfrRegretLoop (n.add_regret_sum st (u - nuP) oppProb) us nuP
              oppProb (st + 1) := rfl
    obtain ⟨ha, hs, hss, hinfo, hlen, hlow, hmain⟩ :=
      ih (n.add_regret_sum st (u - nuP) oppProb) (st + 1)
    have hlen' : (n.add_regret_sum st (u - nuP) oppProb).regretSum.length
        = n.regretSum.length := by
      simp [Cfr.Node.add_regret_sum]
    rw [step]
    refine ⟨ha, hs, hss, hinfo, by rw [hlen, hlen'], ?_, ?_⟩
    · intro j hj
      rw [hlow j (by omega)]
      simp only [Cfr.Node.add_regret_sum]
      exact getD_set_ne _ _ _ _ (by omega)
    · intro k hk hb
      simp only [List.length_cons] at hb
      match k with
      | 0 =>
        simp only [Nat.add_zero]
        rw [hlow st (by omega)]
        simp only [Cfr.Node.add_regret_sum, List.getD_cons_zero]
        rw [getD_set_self _ _ _ (by omega)]
      | k + 1 =>
        rw [show st + (k + 1) = (st + 1) + k from by omega,
          hmain k (by simpa using hk) (by rw [hlen']; omega)]
        simp only [Cfr.Node.add_regret_sum, List.getD_cons_succ]
        rw [getD_set_ne _ _ _ _ (by omega)]

/-- C2: in the exact CFR trainer, at a decision node of player `P`, after
recursing into all stored actions (`cfrActionLoop`, which also yields the
per-action utilities `utils` and the strategy-weighted `nodeUtil`), the node
for `to_info_set(state)` has, for every action index `i`, `regret_sum[i]`
incremented by `actions_prob[opponent(P)] * (utils[i] − nodeUtil[P])`: the
counterfactual regret increment is scaled by the opponent's reach probability,
not the acting player's.  The bound `utils.length ≤ node3.regretSum.length` is
the in-bounds condition maintained by claim C9. -/
theorem cfr_regret_scaled_by_opponent_reach
    (fuel : Nat) (player : Fin 2) (infoSet : Nat) (branches : List GameTree)
    (m m3 : NodeMap) (ap : ℚ × ℚ) (utils : List ℚ) (nodeUtil : ℚ × ℚ)
    (node3 : Cfr.Node)
    (hlen : (cfrFetchNode m infoSet branches).get_actions.length ≠ 0)
    (hloop : cfrActionLoop (cfr fuel) player branches
        (cfrFetchNode m infoSet branches).get_actions
        (Cfr.Node.to_strategy (cfrFetchNode m infoSet branches)
          (getp ap player)).1
        (insertA m infoSet
          (Cfr.Node.to_strategy (cfrFetchNode m infoSet branches)
            (getp ap player)).2)
        ap (0, 0) = some (utils, nodeUtil, m3))
    (hn3 : lookupA m3 infoSet = some node3)
    (hwf : utils.length ≤ node3.regretSum.length) :
    cfr (fuel + 1) (GameTree.decision player infoSet branches) m ap
      = some (nodeUtil,
          insertA m3 infoSet
            (cfrRegretLoop node3 utils (getp nodeUtil player)
              (getp ap (opponentF player)) 0)) ∧
    ∀ i, i < utils.length →
      (cfrRegretLoop node3 utils (getp nodeUtil player)
          (getp ap (opponentF player)) 0).regretSum.getD i 0
        = node3.regretSum.getD i 0
          + getp ap (opponentF player) * (utils.getD i 0 - getp nodeUtil player) := by
  constructor
  · show (let node := cfrFetchNode m infoSet branches
      if node.get_actions.length = 0 then none
      else
        match cfrActionLoop (cfr fuel) player branches node.get_actions
            (Cfr.Node.to_strategy node (getp ap player)).1
            (insertA m infoSet (Cfr.Node.to_strategy node (getp ap player)).2)
            ap (0, 0) with
        | none => none
        | some (utils, nodeUtil, m3) =>
          match lookupA m3 infoSet with
          | none => none
          | some node3 =>
            some (nodeUtil,
              insertA m3 infoSet
                (cfrRegretLoop node3 utils (getp nodeUtil player)
                  (getp ap (opponentF player)) 0))) = _
    simp only [if_neg hlen, hloop, hn3]
  · intro i hi
    have hspec := cfrRegretLoop_spec utils node3
      (getp nodeUtil player) (getp ap (opponentF player)) 0
    have := hspec.2.2.2.2.2.2 i hi (by omega)
    simpa using this

def branchesC2 : List GameTree :=
  [GameTree.terminal (3, -3), GameTree.terminal (1, -1)]

def nodeC2 : Cfr.Node :=
  { regretSum := [0, 0]
    strategy := [1/2, 1/2]
    strategySum := [1/2, 1/2]
    actions := [0, 1]
    infoSet := 7 }

theorem cfr_regret_scaled_by_opponent_reach_witness :
    cfr (1 + 1) (GameTree.decision 0 7 branchesC2) [] (1, 1)
      = some (((2 : ℚ), (-2 : ℚ)),
          insertA [(7, nodeC2)] 7
            (cfrRegretLoop nodeC2 [3, 1] (getp (2, -2) 0)
              (getp (1, 1) (opponentF 0)) 0)) ∧
    ∀ i, i < ([(3 : ℚ), 1]).length →
      (cfrRegretLoop nodeC2 [3, 1] (getp (2, -2) 0)
          (getp (1, 1) (opponentF 0)) 0).regretSum.getD i 0
        = nodeC2.regretSum.getD i 0
          + getp (1, 1) (opponentF 0) * (([(3 : ℚ), 1]).getD i 0 - getp (2, -2) 0) :=
  cfr_regret_scaled_by_opponent_reach 1 0 7 branchesC2 [] [(7, nodeC2)]
    (1, 1) [3, 1] (2, -2) nodeC2 (by decide)
    (by norm_num [cfrActionLoop, cfr, cfrFetchNode, lookupA, insertA,
      Cfr.Node.to_strategy, Cfr.Node.new, Cfr.Node.get_actions, getp, mulp,
      branchesC2, nodeC2, List.filter, List.replicate, List.range_succ])
    (by norm_num [lookupA, nodeC2]) (by norm_num [nodeC2])

/-! ## The external-sampling MCCFR trainer
(`src/cfr/src/solvers/mccfr_external_sampling/trainer.rs`)

Randomness is an explicit stream of rational draws: each `WeightedIndex`
sample consumes one draw `r` and returns the unique index whose cumulative
weight interval contains `r`. -/

abbrev MCNodeMap := List (Nat × Mccfr.Node)

/-- Walk the cumulative-weight intervals of a `WeightedIndex` distribution. -/
def weightedPick : List ℚ → ℚ → Option Nat
  | [], _ => none
  | w :: ws, r =>
    if r < w then some 0 else (weightedPick ws (r - w)).map (· + 1)

/-- `WeightedIndex::new(weights)` followed by `sample`: `new` panics (`none`)
unless all weights are nonnegative with positive total (`Trainer::sample_index`
/ `Trainer::sample_action` unwrap that error).  A draw `r` outside `[0, total)`
cannot arise from the real sampler and also yields `none`. -/
def sample_index (weights : List ℚ) (r : ℚ) : Option Nat :=
  if (∀ w ∈ weights, 0 ≤ w) ∧ 0 < weights.sum then weightedPick weights r
  else none

/-- `nodes.borrow_mut().entry(state.to_info_set()).or_insert_with(...)`. -/
def mcFetchNode (m : MCNodeMap) (infoSet : Nat) (branches : List GameTree) :
    Mccfr.Node :=
  match lookupA m infoSet with
  | some n => n
  | none => Mccfr.Node.new (List.range branches.length)

/-- Traverser-turn action loop of `Trainer::sampling`: recurse into **every**
stored action, collecting each `act_util` and accumulating
`util += strategy[i] * act_util` in lockstep with the strategy vector. -/
def mcTraverserLoop
    (recurse : GameTree → MCNodeMap → List ℚ → Option (ℚ × MCNodeMap × List ℚ))
    (branches : List GameTree) :
    List Nat → List ℚ → MCNodeMap → List ℚ → ℚ →
    Option (List ℚ × ℚ × MCNodeMap × List ℚ)
  | [], _, m, rng, acc => some ([], acc, m, rng)
  | act :: acts, strat, m, rng, acc =>
    match strat with
    | [] => none
    | sp :: strat' =>
      match branches[act]? with
      | none => none
      | some child =>
        match recurse child m rng with
        | none => none
        | some (u, m', rng') =>
          match mcTraverserLoop recurse branches acts strat' m' rng'
              (acc + sp * u) with
          | none => none
          | some (utils, util, m'', rng'') => some (u :: utils, util, m'', rng'')

/-- Traverser-turn regret update of `Trainer::sampling`:
`regret_sum[i] += act_utils[i] - util` for every action index (equal-length
vectors under claim C9, hence `zipWith`; unequal lengths panic in Rust). -/
def mcRegretUpdate (n : Mccfr.Node) (utils : List ℚ) (util : ℚ) : Mccfr.Node :=
  { n with
    regretSum := List.zipWith (fun rs au => rs + (au - util)) n.regretSum utils }

/-- Opponent-turn average-strategy update of `Trainer::sampling`:
`strategy_sum[i] += strategy[i]` for every action index (equal-length vectors
under claim C9). -/
def mcStrategySumUpdate (n : Mccfr.Node) (strat : List ℚ) : Mccfr.Node :=
  { n with
    strategySum := List.zipWith (fun ss p => ss + p) n.strategySum strat }

/-- `Trainer::sampling`
(`src/cfr/src/solvers/mccfr_external_sampling/trainer.rs:87-152`), with
explicit recursion fuel and randomness stream (`none` = no value returned:
fuel or stream exhausted, or a panic — the `WeightedIndex` unwraps, the
always-on `assert_eq!(strategy.len(), actions.len())`, or an out-of-bounds
index). -/
def sampling : Nat → GameTree → MCNodeMap → List ℚ → Fin 2 →
    Option (ℚ × MCNodeMap × List ℚ)
  | 0, _, _, _, _ => none
  | _ + 1, GameTree.terminal p, m, rng, traverser => some (getp p traverser, m, rng)
  | fuel + 1, GameTree.chance branches, m, rng, traverser =>
    match rng with
    | [] => none
    | r :: rng' =>
      match sample_index (branches.map Prod.fst) r with
      | none => none
      | some idx =>
        match branches[idx]? with
        | none => none
        | some pc => sampling fuel pc.2 m rng' traverser
  | fuel + 1, GameTree.decision player infoSet branches, m, rng, traverser =>
    let node := Mccfr.Node.regret_matching (mcFetchNode m infoSet branches)
    if node.strategy.length = node.actions.length then
      if player = traverser then
        match mcTraverserLoop (fun t mm g => sampling fuel t mm g traverser)
            branches node.actions node.strategy (insertA m infoSet node) rng
            0 with
        | none => none
        | some (utils, util, m2, rng2) =>
          match lookupA m2 infoSet with
          | none => none
          | some node2 =>
            some (util, insertA m2 infoSet (mcRegretUpdate node2 utils util),
              rng2)
      else
        match rng with
        | [] => none
        | r :: rng' =>
          match sample_index node.strategy r with
          | none => none
          | some idx =>
            match node.actions[idx]? with
            | none => none
            | some act =>
              match branches[act]? with
              | none => none
              | some child =>
                match sampling fuel child (insertA m infoSet node) rng'
                    traverser with
                | none => none
                | some (util, m2, rng2) =>
                  match lookupA m2 infoSet with
                  | none => none
                  | some node2 =>
                    some (util,
                      insertA m2 infoSet
                        (mcStrategySumUpdate node2 node.strategy), rng2)
    else none

/-- The node the trainer works with at a decision node: fetched or created,
then regret-matched (`node_cell.regret_matching()`), which recomputes its
`strategy` in place. -/
def mcCurrentNode (m : MCNodeMap) (infoSet : Nat) (branches : List GameTree) :
    Mccfr.Node :=
  Mccfr.Node.regret_matching (mcFetchNode m infoSet branches)

theorem getD_zipWith (f : ℚ → ℚ → ℚ) (xs ys : List ℚ) (i : Nat)
    (h1 : i < xs.length) (h2 : i < ys.length) :
    (List.zipWith f xs ys).getD i 0 = f (xs.getD i 0) (ys.getD i 0) := by
  induction xs generalizing ys i with
  | nil => simp at h1
  | cons x xs ih =>
    cases ys with
    | nil => simp at h2
    | cons y ys =>
      match i with
      | 0 => simp [List.zipWith]
      | i + 1 =>
        simpa using ih ys i (by simpa using h1) (by simpa using h2)

/-- What a successful traverser loop returns: one utility per stored action
(all actions are recursed into) and the strategy-weighted sum of them. -/
theorem mcTraverserLoop_spec
    (recurse : GameTree → MCNodeMap → List ℚ → Option (ℚ × MCNodeMap × List ℚ))
    (branches : List GameTree) (acts : List Nat) :
    ∀ strat m rng acc utils util m2 rng2,
      mcTraverserLoop recurse branches acts strat m rng acc
        = some (utils, util, m2, rng2) →
      utils.length = acts.length ∧
      util = acc + (List.zipWith (fun s u => s * u) strat utils).sum := by
  induction acts with
  | nil =>
    intro strat m rng acc utils util m2 rng2 h
    simp only [mcTraverserLoop, Option.some_inj, Prod.mk.injEq] at h
    obtain ⟨h1, h2, h3, h4⟩ := h
    subst h1; subst h2
    simp
  | cons act acts ih =>
    intro strat m rng acc utils util m2 rng2 h
    match strat with
    | [] => simp [mcTraverserLoop] at h
    | sp :: strat' =>
      simp only [mcTraverserLoop] at h
      cases hbr : branches[act]? with
      | none => rw [hbr] at h; simp at h
      | some child =>
        rw [hbr] at h
        dsimp only at h
        cases hrec : recurse child m rng with
        | none => rw [hrec] at h; simp at h
        | some r =>
          obtain ⟨u, m', rng'⟩ := r
          rw [hrec] at h
          dsimp only at h
          cases hloop : mcTraverserLoop recurse branches acts strat' m' rng'
              (acc + sp * u) with
          | none => rw [hloop] at h; simp at h
          | some r2 =>
            obtain ⟨utils0, util0, m'', rng''⟩ := r2
            rw [hloop] at h
            dsimp only at h
            simp only [Option.some_inj, Prod.mk.injEq] at h
            obtain ⟨h1, h2, h3, h4⟩ := h
            obtain ⟨hl, hu⟩ := ih strat' m' rng' (acc + sp * u)
              utils0 util0 m'' rng'' hloop
            subst h1; subst h2
            constructor
            · simpa using hl
            · simp only [List.zipWith_cons_cons, List.sum_cons, hu]
              ring

/-- C4: in the external-sampling MCCFR trainer, when the acting player equals
the traverser, `sampling` recurses into every stored action (one utility per
action), computes the strategy-weighted node utility
`util = Σ strategy[i] * act_utils[i]`, and adds `act_utils[i] - util` to
`regret_sum[i]` for every action index — with no scaling of the increment by
any reach probability. -/
theorem sampling_traverser_full_enumeration
    (fuel : Nat) (player : Fin 2) (infoSet : Nat) (branches : List GameTree)
    (m m2 : MCNodeMap) (rng rng2 : List ℚ) (utils : List ℚ) (util : ℚ)
    (node2 : Mccfr.Node)
    (hassert : (mcCurrentNode m infoSet branches).strategy.length
      = (mcCurrentNode m infoSet branches).actions.length)
    (hloop : mcTraverserLoop (fun t mm g => sampling fuel t mm g player)
        branches (mcCurrentNode m infoSet branches).actions
        (mcCurrentNode m infoSet branches).strategy
        (insertA m infoSet (mcCurrentNode m infoSet branches)) rng 0
        = some (utils, util, m2, rng2))
    (hlook : lookupA m2 infoSet = some node2)
    (hwf : utils.length ≤ node2.regretSum.length) :
    sampling (fuel + 1) (GameTree.decision player infoSet branches) m rng player
      = some (util, insertA m2 infoSet (mcRegretUpdate node2 utils util), rng2) ∧
    utils.length = (mcCurrentNode m infoSet branches).actions.length ∧
    util = (List.zipWith (fun s u => s * u)
        (mcCurrentNode m infoSet branches).strategy utils).sum ∧
    ∀ i, i < utils.length →
      (mcRegretUpdate node2 utils util).regretSum.getD i 0
        = node2.regretSum.getD i 0 + (utils.getD i 0 - util) := by
  obtain ⟨hlen, hutil⟩ := mcTraverserLoop_spec _ branches
    (mcCurrentNode m infoSet branches).actions
    (mcCurrentNode m infoSet branches).strategy
    (insertA m infoSet (mcCurrentNode m infoSet branches)) rng 0
    utils util m2 rng2 hloop
  refine ⟨?_, hlen, by simpa using hutil, ?_⟩
  · simp only [sampling]
    rw [show Mccfr.Node.regret_matching (mcFetchNode m infoSet branches)
      = mcCurrentNode m infoSet branches from rfl]
    rw [if_pos hassert]
    simp only [if_true]
    rw [hloop]
    dsimp only
    rw [hlook]
  · intro i hi
    simp only [mcRegretUpdate]
    rw [getD_zipWith _ _ _ i (by omega) hi]

def treeC4 : List GameTree := [GameTree.terminal (4, -4), GameTree.terminal (0, 0)]

def nodeC4 : Mccfr.Node :=
  { regretSum := [0, 0]
    strategySum := [0, 0]
    strategy := [1/2, 1/2]
    actions := [0, 1] }

theorem sampling_traverser_full_enumeration_witness :
    sampling (1 + 1) (GameTree.decision 0 9 treeC4) [] [] 0
      = some (2, insertA [(9, nodeC4)] 9 (mcRegretUpdate nodeC4 [4, 0] 2), []) ∧
    ([(4 : ℚ), 0]).length = (mcCurrentNode [] 9 treeC4).actions.length ∧
    (2 : ℚ) = (List.zipWith (fun s u => s * u)
        (mcCurrentNode [] 9 treeC4).strategy [4, 0]).sum ∧
    ∀ i, i < ([(4 : ℚ), 0]).length →
      (mcRegretUpdate nodeC4 [4, 0] 2).regretSum.getD i 0
        = nodeC4.regretSum.getD i 0 + (([(4 : ℚ), 0]).getD i 0 - 2) :=
  sampling_traverser_full_enumeration 1 0 9 treeC4 [] [(9, nodeC4)] [] []
    [4, 0] 2 nodeC4
    (by norm_num [mcCurrentNode, mcFetchNode, lookupA, Mccfr.Node.new,
      Mccfr.Node.regret_matching, List.replicate, List.range_succ, treeC4])
    (by norm_num [mcCurrentNode, mcFetchNode, lookupA, Mccfr.Node.new,
      Mccfr.Node.regret_matching, List.replicate, List.range_succ,
      mcTraverserLoop, sampling, getp, insertA, treeC4, nodeC4])
    (by norm_num [lookupA, nodeC4]) (by norm_num [nodeC4])

/-- C5: in the external-sampling MCCFR trainer, when the acting player differs
from the traverser, exactly one action is sampled from the regret-matched
current strategy (`sample_index` on `node.strategy`) and only that branch is
recursed into; `strategy_sum[i] += strategy[i]` is accumulated for all actions
at that node; and this `strategy_sum` accumulation happens only at such
opponent-turn nodes — the traverser-turn update (`mcRegretUpdate`) and regret
matching leave `strategy_sum` untouched, and a chance step is exactly the
recursion into the sampled branch with no node update at all. -/
theorem sampling_opponent_samples_one_action
    (fuel : Nat) (player traverser : Fin 2) (infoSet : Nat)
    (branches : List GameTree) (m m2 : MCNodeMap) (r : ℚ) (rng rng2 : List ℚ)
    (idx act : Nat) (child : GameTree) (util : ℚ) (node2 : Mccfr.Node)
    (hne : player ≠ traverser)
    (hassert : (mcCurrentNode m infoSet branches).strategy.length
      = (mcCurrentNode m infoSet branches).actions.length)
    (hsample : sample_index (mcCurrentNode m infoSet branches).strategy r
      = some idx)
    (hact : (mcCurrentNode m infoSet branches).actions[idx]? = some act)
    (hbr : branches[act]? = some child)
    (hrec : sampling fuel child
        (insertA m infoSet (mcCurrentNode m infoSet branches)) rng traverser
      = some (util, m2, rng2))
    (hlook : lookupA m2 infoSet = some node2)
    (hwf : (mcCurrentNode m infoSet branches).strategy.length
      ≤ node2.strategySum.length) :
    sampling (fuel + 1) (GameTree.decision player infoSet branches) m
        (r :: rng) traverser
      = some (util,
          insertA m2 infoSet
            (mcStrategySumUpdate node2 (mcCurrentNode m infoSet branches).strategy),
          rng2) ∧
    (∀ i, i < (mcCurrentNode m infoSet branches).strategy.length →
      (mcStrategySumUpdate node2
          (mcCurrentNode m infoSet branches).strategy).strategySum.getD i 0
        = node2.strategySum.getD i 0
          + (mcCurrentNode m infoSet branches).strategy.getD i 0) ∧
    (∀ (n : Mccfr.Node) (utils : List ℚ) (u : ℚ),
      (mcRegretUpdate n utils u).strategySum = n.strategySum) ∧
    (∀ n : Mccfr.Node, (Mccfr.Node.regret_matching n).strategySum
      = n.strategySum) ∧
    (∀ (f : Nat) (bs : List (ℚ × GameTree)) (mm : MCNodeMap) (rr : ℚ)
        (gg : List ℚ) (tr : Fin 2) (i : Nat) (pc : ℚ × GameTree),
      sample_index (bs.map Prod.fst) rr = some i → bs[i]? = some pc →
      sampling (f + 1) (GameTree.chance bs) mm (rr :: gg) tr
        = sampling f pc.2 mm gg tr) := by
  refine ⟨?_, ?_, fun n utils u => rfl, fun n => rfl, ?_⟩
  · simp only [sampling]
    rw [show Mccfr.Node.regret_matching (mcFetchNode m infoSet branches)
      = mcCurrentNode m infoSet branches from rfl]
    rw [if_pos hassert, if_neg hne]
    simp only [hsample, hact, hbr, hrec, hlook]
  · intro i hi
    simp only [mcStrategySumUpdate]
    rw [getD_zipWith _ _ _ i (by omega) hi]
  · intro f bs mm rr gg tr i pc h1 h2
    simp only [sampling, h1, h2]

theorem sampling_opponent_samples_one_action_witness :
    sampling (1 + 1) (GameTree.decision 0 9 treeC4) [] ((0 : ℚ) :: []) 1
      = some (-4,
          insertA [(9, nodeC4)] 9
            (mcStrategySumUpdate nodeC4 (mcCurrentNode [] 9 treeC4).strategy),
          []) ∧
    (∀ i, i < (mcCurrentNode [] 9 treeC4).strategy.length →
      (mcStrategySumUpdate nodeC4
          (mcCurrentNode [] 9 treeC4).strategy).strategySum.getD i 0
        = nodeC4.strategySum.getD i 0
          + (mcCurrentNode [] 9 treeC4).strategy.getD i 0) ∧
    (∀ (n : Mccfr.Node) (utils : List ℚ) (u : ℚ),
      (mcRegretUpdate n utils u).strategySum = n.strategySum) ∧
    (∀ n : Mccfr.Node, (Mccfr.Node.regret_matching n).strategySum
      = n.strategySum) ∧
    (∀ (f : Nat) (bs : List (ℚ × GameTree)) (mm : MCNodeMap) (rr : ℚ)
        (gg : List ℚ) (tr : Fin 2) (i : Nat) (pc : ℚ × GameTree),
      sample_index (bs.map Prod.fst) rr = some i → bs[i]? = some pc →
      sampling (f + 1) (GameTree.chance bs) mm (rr :: gg) tr
        = sampling f pc.2 mm gg tr) :=
  sampling_opponent_samples_one_action 1 0 1 9 treeC4 [] [(9, nodeC4)] 0 []
    [] 0 0 (GameTree.terminal (4, -4)) (-4) nodeC4
    (by decide)
    (by norm_num [mcCurrentNode, mcFetchNode, lookupA, Mccfr.Node.new,
      Mccfr.Node.regret_matching, List.replicate, List.range_succ, treeC4])
    (by norm_num [mcCurrentNode, mcFetchNode, lookupA, Mccfr.Node.new,
      Mccfr.Node.regret_matching, List.replicate, List.range_succ, treeC4,
      sample_index, weightedPick])
    (by norm_num [mcCurrentNode, mcFetchNode, lookupA, Mccfr.Node.new,
      Mccfr.Node.regret_matching, List.replicate, List.range_succ, treeC4])
    (by norm_num [treeC4])
    (by norm_num [sampling, mcCurrentNode, mcFetchNode, lookupA,
      Mccfr.Node.new, Mccfr.Node.regret_matching, List.replicate,
      List.range_succ, treeC4, nodeC4, insertA, getp])
    (by norm_num [lookupA, nodeC4])
    (by norm_num [mcCurrentNode, mcFetchNode, lookupA, Mccfr.Node.new,
      Mccfr.Node.regret_matching, List.replicate, List.range_succ, treeC4,
      nodeC4])

/-! ## The vector-length invariant (C9) -/

/-- The exact-CFR node invariant: all three accumulator vectors have exactly
the length of the stored action list. -/
def cfrNodeWF (n : Cfr.Node) : Prop :=
  n.regretSum.length = n.actions.length ∧
  n.strategy.length = n.actions.length ∧
  n.strategySum.length = n.actions.length

/-- The MCCFR node invariant. -/
def mcNodeWF (n : Mccfr.Node) : Prop :=
  n.regretSum.length = n.actions.length ∧
  n.strategySum.length = n.actions.length ∧
  n.strategy.length = n.actions.length

/-- Every node stored in the exact-CFR trainer's map is well-formed. -/
def nodeMapWF (m : NodeMap) : Prop :=
  ∀ I n, lookupA m I = some n → cfrNodeWF n

/-- Every node stored in the MCCFR trainer's map is well-formed. -/
def mcNodeMapWF (m : MCNodeMap) : Prop :=
  ∀ I n, lookupA m I = some n → mcNodeWF n

theorem cfrNodeWF_new (acts : List Nat) (infoSet : Nat) :
    cfrNodeWF (Cfr.Node.new acts infoSet) := by
  simp [cfrNodeWF, Cfr.Node.new]

theorem cfrNodeWF_to_strategy (n : Cfr.Node) (w : ℚ) (h : cfrNodeWF n) :
    cfrNodeWF (n.to_strategy w).2 := by
  obtain ⟨h1, h2, h3⟩ := h
  simp only [Cfr.Node.to_strategy, cfrNodeWF]
  by_cases hz : (n.regretSum.filter (fun v => 0 ≤ v)).sum = 0 <;>
    simp [hz, List.length_zipWith, h1, h2, h3]

theorem cfrNodeWF_add_regret_sum (n : Cfr.Node) (i : Nat) (reg p : ℚ)
    (h : cfrNodeWF n) : cfrNodeWF (n.add_regret_sum i reg p) := by
  obtain ⟨h1, h2, h3⟩ := h
  simp [cfrNodeWF, Cfr.Node.add_regret_sum, h1, h2, h3]

theorem cfrNodeWF_cfrRegretLoop (n : Cfr.Node) (utils : List ℚ)
    (nuP oP : ℚ) (st : Nat) (h : cfrNodeWF n) :
    cfrNodeWF (cfrRegretLoop n utils nuP oP st) := by
  obtain ⟨ha, hs, hss, hinfo, hlen, _, _⟩ := cfrRegretLoop_spec utils n nuP oP st
  obtain ⟨h1, h2, h3⟩ := h
  exact ⟨by rw [hlen, ha, h1], by rw [hs, ha, h2], by rw [hss, ha, h3]⟩

theorem mcNodeWF_new (acts : List Nat) : mcNodeWF (Mccfr.Node.new acts) := by
  simp [mcNodeWF, Mccfr.Node.new]

theorem mcNodeWF_regret_matching (n : Mccfr.Node) (h : mcNodeWF n) :
    mcNodeWF (Mccfr.Node.regret_matching n) := by
  obtain ⟨h1, h2, h3⟩ := h
  simp only [Mccfr.Node.regret_matching, mcNodeWF]
  by_cases hz : n.regretSum.foldl (fun acc r => acc + max r 0) 0 ≤ 0 <;>
    simp [hz, h1, h2, h3]

theorem mcNodeWF_update_strategy_sum (n : Mccfr.Node) (h : mcNodeWF n) :
    mcNodeWF (Mccfr.Node.update_strategy_sum n) := by
  obtain ⟨h1, h2, h3⟩ := h
  simp [mcNodeWF, Mccfr.Node.update_strategy_sum, List.length_zipWith,
    h1, h2, h3]

theorem mcNodeWF_mcRegretUpdate (n : Mccfr.Node) (utils : List ℚ) (u : ℚ)
    (h : mcNodeWF n) (hlen : n.regretSum.length ≤ utils.length) :
    mcNodeWF (mcRegretUpdate n utils u) := by
  obtain ⟨h1, h2, h3⟩ := h
  refine ⟨?_, h2, h3⟩
  simp only [mcRegretUpdate, List.length_zipWith]
  omega

theorem mcNodeWF_mcStrategySumUpdate (n : Mccfr.Node) (strat : List ℚ)
    (h : mcNodeWF n) (hlen : n.strategySum.length ≤ strat.length) :
    mcNodeWF (mcStrategySumUpdate n strat) := by
  obtain ⟨h1, h2, h3⟩ := h
  refine ⟨h1, ?_, h3⟩
  simp only [mcStrategySumUpdate, List.length_zipWith]
  omega

theorem nodeMapWF_insertA (m : NodeMap) (infoSet : Nat) (n : Cfr.Node)
    (hm : nodeMapWF m) (hn : cfrNodeWF n) : nodeMapWF (insertA m infoSet n) := by
  intro I n' hl
  by_cases h : infoSet = I
  · subst h
    rw [lookupA_insertA_self] at hl
    cases hl
    exact hn
  · rw [lookupA_insertA_ne _ _ _ _ h] at hl
    exact hm I n' hl

theorem mcNodeMapWF_insertA (m : MCNodeMap) (infoSet : Nat) (n : Mccfr.Node)
    (hm : mcNodeMapWF m) (hn : mcNodeWF n) :
    mcNodeMapWF (insertA m infoSet n) := by
  intro I n' hl
  by_cases h : infoSet = I
  · subst h
    rw [lookupA_insertA_self] at hl
    cases hl
    exact hn
  · rw [lookupA_insertA_ne _ _ _ _ h] at hl
    exact hm I n' hl

theorem cfrChanceLoop_wf
    (recurse : GameTree → NodeMap → ℚ × ℚ → Option ((ℚ × ℚ) × NodeMap))
    (hrec : ∀ t m ap r, nodeMapWF m → recurse t m ap = some r →
      nodeMapWF r.2)
    (bs : List (ℚ × GameTree)) :
    ∀ m ap acc r, nodeMapWF m →
      cfrChanceLoop recurse bs m ap acc = some r → nodeMapWF r.2 := by
  induction bs with
  | nil =>
    intro m ap acc r hm h
    simp only [cfrChanceLoop, Option.some_inj] at h
    rw [← h]
    exact hm
  | cons pc rest ih =>
    obtain ⟨prob, child⟩ := pc
    intro m ap acc r hm h
    simp only [cfrChanceLoop] at h
    cases hr : recurse child m (ap.1 * prob, ap.2 * prob) with
    | none => rw [hr] at h; simp at h
    | some ur =>
      rw [hr] at h
      dsimp only at h
      exact ih ur.2 ap _ r (hrec _ _ _ _ hm hr) h

theorem cfrActionLoop_wf
    (recurse : GameTree → NodeMap → ℚ × ℚ → Option ((ℚ × ℚ) × NodeMap))
    (hrec : ∀ t m ap r, nodeMapWF m → recurse t m ap = some r →
      nodeMapWF r.2)
    (player : Fin 2) (branches : List GameTree) (acts : List Nat) :
    ∀ strat m ap acc r, nodeMapWF m →
      cfrActionLoop recurse player branches acts strat m ap acc = some r →
      nodeMapWF r.2.2 := by
  induction acts with
  | nil =>
    intro strat m ap acc r hm h
    simp only [cfrActionLoop, Option.some_inj] at h
    rw [← h]
    exact hm
  | cons act acts ih =>
    intro strat m ap acc r hm h
    match strat with
    | [] => simp [cfrActionLoop] at h
    | sp :: strat' =>
      simp only [cfrActionLoop] at h
      cases hbr : branches[act]? with
      | none => rw [hbr] at h; simp at h
      | some child =>
        rw [hbr] at h
        dsimp only at h
        cases hr : recurse child m (mulp ap player sp) with
        | none => rw [hr] at h; simp at h
        | some ur =>
          obtain ⟨u, m'⟩ := ur
          rw [hr] at h
          dsimp only at h
          cases hloop : cfrActionLoop recurse player branches acts strat' m'
              ap (acc.1 + sp * u.1, acc.2 + sp * u.2) with
          | none => rw [hloop] at h; simp at h
          | some r2 =>
            obtain ⟨utils0, nodeUtil0, m''⟩ := r2
            rw [hloop] at h
            dsimp only at h
            have := ih strat' m' ap _ _ (hrec _ _ _ _ hm hr) hloop
            simp only [Option.some_inj] at h
            rw [← h]
            exact this

/-- The exact-CFR recursion keeps every stored node's vectors at the length of
its action list. -/
theorem cfr_preserves_wf :
    ∀ fuel t m ap r, nodeMapWF m → cfr fuel t m ap = some r →
      nodeMapWF r.2 := by
  intro fuel
  induction fuel with
  | zero => intro t m ap r _ h; simp [cfr] at h
  | succ fuel ih =>
    intro t m ap r hm h
    match t with
    | GameTree.terminal p =>
      simp only [cfr, Option.some_inj] at h
      rw [← h]
      exact hm
    | GameTree.chance branches =>
      exact cfrChanceLoop_wf (cfr fuel) ih branches m ap (0, 0) r hm h
    | GameTree.decision player infoSet branches =>
      simp only [cfr] at h
      by_cases hlen : (cfrFetchNode m infoSet branches).get_actions.length = 0
      · rw [if_pos hlen] at h
        simp at h
      · rw [if_neg hlen] at h
        have hnodewf : cfrNodeWF (cfrFetchNode m infoSet branches) := by
          unfold cfrFetchNode
          cases hlk : lookupA m infoSet with
          | none => exact cfrNodeWF_new _ _
          | some n0 => exact hm infoSet n0 hlk
        have hm2 : nodeMapWF (insertA m infoSet
            (Cfr.Node.to_strategy (cfrFetchNode m infoSet branches)
              (getp ap player)).2) :=
          nodeMapWF_insertA _ _ _ hm (cfrNodeWF_to_strategy _ _ hnodewf)
        cases hloop : cfrActionLoop (cfr fuel) player branches
            (cfrFetchNode m infoSet branches).get_actions
            (Cfr.Node.to_strategy (cfrFetchNode m infoSet branches)
              (getp ap player)).1
            (insertA m infoSet
              (Cfr.Node.to_strategy (cfrFetchNode m infoSet branches)
                (getp ap player)).2) ap (0, 0) with
        | none => rw [hloop] at h; simp at h
        | some r2 =>
          obtain ⟨utils, nodeUtil, m3⟩ := r2
          rw [hloop] at h
          dsimp only at h
          have hm3 : nodeMapWF m3 :=
            cfrActionLoop_wf (cfr fuel) ih player branches _ _ _ _ _ _ hm2 hloop
          cases hlk3 : lookupA m3 infoSet with
          | none => rw [hlk3] at h; simp at h
          | some node3 =>
            rw [hlk3] at h
            dsimp only at h
            simp only [Option.some_inj] at h
            rw [← h]
            exact nodeMapWF_insertA _ _ _ hm3
              (cfrNodeWF_cfrRegretLoop _ _ _ _ _ (hm3 infoSet node3 hlk3))

/-- Keys present in `m` stay present with an unchanged action list (nodes are
never deleted, and no trainer operation rewrites a node's `actions`). -/
def actionsStable (m m' : MCNodeMap) : Prop :=
  ∀ I n, lookupA m I = some n →
    ∃ n', lookupA m' I = some n' ∧ n'.actions = n.actions

theorem actionsStable_refl (m : MCNodeMap) : actionsStable m m :=
  fun _ n h => ⟨n, h, rfl⟩

theorem actionsStable_trans {m1 m2 m3 : MCNodeMap}
    (h12 : actionsStable m1 m2) (h23 : actionsStable m2 m3) :
    actionsStable m1 m3 := by
  intro I n h
  obtain ⟨n', hl', he'⟩ := h12 I n h
  obtain ⟨n'', hl'', he''⟩ := h23 I n' hl'
  exact ⟨n'', hl'', he''.trans he'⟩

theorem actionsStable_insert (m : MCNodeMap) (infoSet : Nat) (n1 : Mccfr.Node)
    (h : ∀ n0, lookupA m infoSet = some n0 → n1.actions = n0.actions) :
    actionsStable m (insertA m infoSet n1) := by
  intro I n hl
  by_cases hI : infoSet = I
  · subst hI
    exact ⟨n1, lookupA_insertA_self _ _ _, h n hl⟩
  · exact ⟨n, by rw [lookupA_insertA_ne _ _ _ _ hI]; exact hl, rfl⟩

theorem mcTraverserLoop_wf
    (recurse : GameTree → MCNodeMap → List ℚ → Option (ℚ × MCNodeMap × List ℚ))
    (hrec : ∀ t m rng r, mcNodeMapWF m → recurse t m rng = some r →
      mcNodeMapWF r.2.1 ∧ actionsStable m r.2.1)
    (branches : List GameTree) (acts : List Nat) :
    ∀ strat m rng acc r, mcNodeMapWF m →
      mcTraverserLoop recurse branches acts strat m rng acc = some r →
      mcNodeMapWF r.2.2.1 ∧ actionsStable m r.2.2.1 := by
  induction acts with
  | nil =>
    intro strat m rng acc r hm h
    simp only [mcTraverserLoop, Option.some_inj] at h
    rw [← h]
    exact ⟨hm, actionsStable_refl m⟩
  | cons act acts ih =>
    intro strat m rng acc r hm h
    match strat with
    | [] => simp [mcTraverserLoop] at h
    | sp :: strat' =>
      simp only [mcTraverserLoop] at h
      cases hbr : branches[act]? with
      | none => rw [hbr] at h; simp at h
      | some child =>
        rw [hbr] at h
        dsimp only at h
        cases hr : recurse child m rng with
        | none => rw [hr] at h; simp at h
        | some ur =>
          obtain ⟨u, m', rng'⟩ := ur
          rw [hr] at h
          dsimp only at h
          cases hloop : mcTraverserLoop recurse branches acts strat' m' rng'
              (acc + sp * u) with
          | none => rw [hloop] at h; simp at h
          | some r2 =>
            obtain ⟨utils0, util0, m'', rng''⟩ := r2
            rw [hloop] at h
            dsimp only at h
            obtain ⟨hw1, hs1⟩ := hrec _ _ _ _ hm hr
            obtain ⟨hw2, hs2⟩ := ih strat' m' rng' _ _ hw1 hloop
            simp only [Option.some_inj] at h
            rw [← h]
            exact ⟨hw2, actionsStable_trans hs1 hs2⟩

/-- The MCCFR recursion keeps every stored node's vectors at the length of its
action list, and never changes a stored node's action list. -/
theorem sampling_preserves_wf :
    ∀ fuel t m rng tr r, mcNodeMapWF m → sampling fuel t m rng tr = some r →
      mcNodeMapWF r.2.1 ∧ actionsStable m r.2.1 := by
  intro fuel
  induction fuel with
  | zero => intro t m rng tr r _ h; simp [sampling] at h
  | succ fuel ih =>
    intro t m rng tr r hm h
    match t with
    | GameTree.terminal p =>
      simp only [sampling, Option.some_inj] at h
      rw [← h]
      exact ⟨hm, actionsStable_refl m⟩
    | GameTree.chance branches =>
      match rng with
      | [] => simp [sampling] at h
      | rr :: rng' =>
        simp only [sampling] at h
        cases hs : sample_index (branches.map Prod.fst) rr with
        | none => rw [hs] at h; simp at h
        | some idx =>
          rw [hs] at h
          dsimp only at h
          cases hbr : branches[idx]? with
          | none => rw [hbr] at h; simp at h
          | some pc =>
            rw [hbr] at h
            dsimp only at h
            exact ih pc.2 m rng' tr r hm h
    | GameTree.decision player infoSet branches =>
      simp only [sampling] at h
      have hnodewf : mcNodeWF (mcCurrentNode m infoSet branches) := by
        apply mcNodeWF_regret_matching
        unfold mcFetchNode
        cases hlk : lookupA m infoSet with
        | none => exact mcNodeWF_new _
        | some n0 => exact hm infoSet n0 hlk
      have hfetch_actions : ∀ n0, lookupA m infoSet = some n0 →
          (mcCurrentNode m infoSet branches).actions = n0.actions := by
        intro n0 hlk
        simp [mcCurrentNode, Mccfr.Node.regret_matching, mcFetchNode, hlk]
      have hm1 : mcNodeMapWF (insertA m infoSet
          (mcCurrentNode m infoSet branches)) :=
        mcNodeMapWF_insertA _ _ _ hm hnodewf
      have hs1 : actionsStable m
          (insertA m infoSet (mcCurrentNode m infoSet branches)) :=
        actionsStable_insert _ _ _ hfetch_actions
      rw [show Mccfr.Node.regret_matching (mcFetchNode m infoSet branches)
        = mcCurrentNode m infoSet branches from rfl] at h
      by_cases hassert : (mcCurrentNode m infoSet branches).strategy.length
          = (mcCurrentNode m infoSet branches).actions.length
      · rw [if_pos hassert] at h
        by_cases hpt : player = tr
        · rw [if_pos hpt] at h
          cases hloop : mcTraverserLoop (fun t mm g => sampling fuel t mm g tr)
              branches (mcCurrentNode m infoSet branches).actions
              (mcCurrentNode m infoSet branches).strategy
              (insertA m infoSet (mcCurrentNode m infoSet branches)) rng 0 with
          | none => rw [hloop] at h; simp at h
          | some r2 =>
            obtain ⟨utils, util, m2, rng2⟩ := r2
            rw [hloop] at h
            dsimp only at h
            cases hlk2 : lookupA m2 infoSet with
            | none => rw [hlk2] at h; simp at h
            | some node2 =>
              rw [hlk2] at h
              dsimp only at h
              obtain ⟨hw2, hst2⟩ := mcTraverserLoop_wf _
                (fun t mm g rr hmm hh => ih t mm g tr rr hmm hh) branches _ _ _
                _ _ _ hm1 hloop
              obtain ⟨hl, _⟩ := mcTraverserLoop_spec _ branches _ _ _ _ _ _ _
                _ _ hloop
              obtain ⟨node2', hlk2', hact2⟩ := hst2 infoSet
                (mcCurrentNode m infoSet branches)
                (lookupA_insertA_self _ _ _)
              rw [hlk2] at hlk2'
              cases hlk2'
              have hwfn2 : mcNodeWF node2 := hw2 infoSet node2 hlk2
              have hreg : node2.regretSum.length ≤ utils.length := by
                rw [hwfn2.1, hact2, ← hl]
              simp only [Option.some_inj] at h
              rw [← h]
              refine ⟨mcNodeMapWF_insertA _ _ _ hw2
                  (mcNodeWF_mcRegretUpdate _ _ _ hwfn2 hreg), ?_⟩
              refine actionsStable_trans hs1 (actionsStable_trans hst2 ?_)
              apply actionsStable_insert
              intro n0 h0
              rw [hlk2] at h0
              cases h0
              rfl
        · rw [if_neg hpt] at h
          match rng with
          | [] => simp at h
          | rr :: rng' =>
            dsimp only at h
            cases hsi : sample_index (mcCurrentNode m infoSet branches).strategy
                rr with
            | none => rw [hsi] at h; simp at h
            | some idx =>
              rw [hsi] at h
              dsimp only at h
              cases hai : (mcCurrentNode m infoSet branches).actions[idx]? with
              | none => rw [hai] at h; simp at h
              | some act =>
                rw [hai] at h
                dsimp only at h
                cases hbr : branches[act]? with
                | none => rw [hbr] at h; simp at h
                | some child =>
                  rw [hbr] at h
                  dsimp only at h
                  cases hr : sampling fuel child
                      (insertA m infoSet (mcCurrentNode m infoSet branches))
                      rng' tr with
                  | none => rw [hr] at h; simp at h
                  | some r2 =>
                    obtain ⟨util, m2, rng2⟩ := r2
                    rw [hr] at h
                    dsimp only at h
                    cases hlk2 : lookupA m2 infoSet with
                    | none => rw [hlk2] at h; simp at h
                    | some node2 =>
                      rw [hlk2] at h
                      dsimp only at h
                      obtain ⟨hw2, hst2⟩ := ih child _ rng' tr _ hm1 hr
                      obtain ⟨node2', hlk2', hact2⟩ := hst2 infoSet
                        (mcCurrentNode m infoSet branches)
                        (lookupA_insertA_self _ _ _)
                      rw [hlk2] at hlk2'
                      cases hlk2'
                      have hwfn2 : mcNodeWF node2 := hw2 infoSet node2 hlk2
                      have hss : node2.strategySum.length
                          ≤ (mcCurrentNode m infoSet branches).strategy.length := by
                        rw [hwfn2.2.1, hact2, hassert]
                      simp only [Option.some_inj] at h
                      rw [← h]
                      refine ⟨mcNodeMapWF_insertA _ _ _ hw2
                          (mcNodeWF_mcStrategySumUpdate _ _ hwfn2 hss), ?_⟩
                      refine actionsStable_trans hs1
                        (actionsStable_trans hst2 ?_)
                      apply actionsStable_insert
                      intro n0 h0
                      rw [hlk2] at h0
                      cases h0
                      rfl
      · rw [if_neg hassert] at h
        simp at h

/-- C9: every information-set node, from creation (`Node::new` in both
solvers) and after every trainer operation on it (regret matching with its
cumulative-strategy update, the regret-sum updates, the strategy-sum update),
keeps its `regret_sum`, `strategy` and `strategy_sum` vectors at exactly the
length of its stored action list; and both trainers' recursions
(`Trainer::cfr`, `Trainer::sampling`) preserve this for every node in their
info-set map, so every index they use into these vectors is in bounds.
(The two `≤` hypotheses are what the trainers supply at the call sites:
per-action vectors as long as the node's own — see C4/C5.) -/
theorem node_vectors_match_action_list_length :
    (∀ acts infoSet, cfrNodeWF (Cfr.Node.new acts infoSet)) ∧
    (∀ (n : Cfr.Node) w, cfrNodeWF n → cfrNodeWF (n.to_strategy w).2) ∧
    (∀ (n : Cfr.Node) i reg p, cfrNodeWF n →
      cfrNodeWF (n.add_regret_sum i reg p)) ∧
    (∀ (n : Cfr.Node) utils nuP oP st, cfrNodeWF n →
      cfrNodeWF (cfrRegretLoop n utils nuP oP st)) ∧
    (∀ acts, mcNodeWF (Mccfr.Node.new acts)) ∧
    (∀ n : Mccfr.Node, mcNodeWF n → mcNodeWF (Mccfr.Node.regret_matching n)) ∧
    (∀ n : Mccfr.Node, mcNodeWF n →
      mcNodeWF (Mccfr.Node.update_strategy_sum n)) ∧
    (∀ (n : Mccfr.Node) utils u, mcNodeWF n →
      n.regretSum.length ≤ utils.length → mcNodeWF (mcRegretUpdate n utils u)) ∧
    (∀ (n : Mccfr.Node) strat, mcNodeWF n →
      n.strategySum.length ≤ strat.length →
      mcNodeWF (mcStrategySumUpdate n strat)) ∧
    (∀ fuel t m ap r, nodeMapWF m → cfr fuel t m ap = some r →
      nodeMapWF r.2) ∧
    (∀ fuel t m rng tr r, mcNodeMapWF m → sampling fuel t m rng tr = some r →
      mcNodeMapWF r.2.1) :=
  ⟨cfrNodeWF_new, cfrNodeWF_to_strategy, cfrNodeWF_add_regret_sum,
    cfrNodeWF_cfrRegretLoop, mcNodeWF_new, mcNodeWF_regret_matching,
    mcNodeWF_update_strategy_sum, mcNodeWF_mcRegretUpdate,
    mcNodeWF_mcStrategySumUpdate, cfr_preserves_wf,
    fun fuel t m rng tr r hm h => (sampling_preserves_wf fuel t m rng tr r hm h).1⟩

theorem node_vectors_match_action_list_length_witness :
    cfrNodeWF (Cfr.Node.new [0, 1] 3) ∧
    cfrNodeWF ((Cfr.Node.new [0, 1] 3).to_strategy 1).2 ∧
    mcNodeWF (mcRegretUpdate (Mccfr.Node.new [0, 1]) [1, 2] 1) ∧
    nodeMapWF [] ∧
    mcNodeMapWF [] := by
  have hmap : nodeMapWF [] := by
    intro I n h
    simp [lookupA] at h
  have hmcmap : mcNodeMapWF [] := by
    intro I n h
    simp [lookupA] at h
  refine ⟨node_vectors_match_action_list_length.1 [0, 1] 3,
    node_vectors_match_action_list_length.2.1 (Cfr.Node.new [0, 1] 3) 1
      (node_vectors_match_action_list_length.1 [0, 1] 3),
    node_vectors_match_action_list_length.2.2.2.2.2.2.2.1
      (Mccfr.Node.new [0, 1]) [1, 2] 1
      (node_vectors_match_action_list_length.2.2.2.2.1 [0, 1])
      (by simp [Mccfr.Node.new]),
    node_vectors_match_action_list_length.2.2.2.2.2.2.2.2.2.1 1
      (GameTree.terminal (0, 0)) [] (1, 1) ((0, 0), []) hmap
      (by norm_num [cfr]),
    (node_vectors_match_action_list_length.2.2.2.2.2.2.2.2.2.2 1
      (GameTree.terminal (0, 0)) [] [] 0 (0, [], []) hmcmap
      (by norm_num [sampling, getp]))⟩

/-! ## The exploitability evaluator (`src/cfr/src/eval.rs`)

A concrete `State` is the path of branch indices from the root; the root tree
is a fixed parameter and `with_action(s, a)` is `s ++ [a]`, resolved back to a
subtree with `subtreeAt`.  A `Strategy` is a function `Nat → Option (List ℚ)`
(the trait's `get_strategy`); table-backed strategies are association-list
lookups — for keys present in the table this agrees with the panicking
`HashMap` implementation (see C10), and the concrete evaluations below never
query an absent key. -/

/-- Resolve a path of branch indices to the subtree it denotes. -/
def subtreeAt : GameTree → List Nat → Option GameTree
  | t, [] => some t
  | GameTree.terminal _, _ :: _ => none
  | GameTree.chance bs, i :: rest =>
    match bs[i]? with
    | some pc => subtreeAt pc.2 rest
    | none => none
  | GameTree.decision _ _ bs, i :: rest =>
    match bs[i]? with
    | some c => subtreeAt c rest
    | none => none

/-- `ReachProbabilities::insert`: `entry(state).or_insert(0.0); *prob += p`. -/
def rpInsert : List (List Nat × ℚ) → List Nat → ℚ → List (List Nat × ℚ)
  | [], s, p => [(s, p)]
  | (s', p') :: rest, s, p =>
    if s' = s then (s', p' + p) :: rest else (s', p') :: rpInsert rest s p

/-- `reach_probabilities.entry(info_set).or_default()` then `insert`. -/
def rpMapInsert (rp : List (Nat × List (List Nat × ℚ))) (infoSet : Nat)
    (s : List Nat) (p : ℚ) : List (Nat × List (List Nat × ℚ)) :=
  match lookupA rp infoSet with
  | some states => insertA rp infoSet (rpInsert states s p)
  | none => insertA rp infoSet (rpInsert [] s p)

/-- Child loop of `calc_reach_probabilities`: recurse into branch `i` with the
reach probability scaled by that branch's weight. -/
def rpFold
    (recurse : List Nat → ℚ → List (Nat × List (List Nat × ℚ)) →
      Option (List (Nat × List (List Nat × ℚ)))) :
    List (Nat × ℚ) → List Nat → ℚ → List (Nat × List (List Nat × ℚ)) →
    Option (List (Nat × List (List Nat × ℚ)))
  | [], _, _, rp => some rp
  | (i, w) :: rest, path, reach, rp =>
    match recurse (path ++ [i]) (reach * w) rp with
    | none => none
    | some rp' => rpFold recurse rest path reach rp'

/-- `calc_reach_probabilities` (`src/cfr/src/eval.rs:71-134`): accumulate, for
each of the best-response player's info sets, the reach probability of every
concrete state in it; the best-response player's own actions count as
probability `1.0`, the opponent plays `safe_get_strategy`, chance plays its
branch weights. -/
def calc_reach_probabilities (brPlayer : Fin 2)
    (st : Nat → Option (List ℚ)) (root : GameTree) :
    Nat → List Nat → ℚ → List (Nat × List (List Nat × ℚ)) →
    Option (List (Nat × List (List Nat × ℚ)))
  | 0, _, _, _ => none
  | fuel + 1, path, reach, rp =>
    match subtreeAt root path with
    | none => none
    | some (GameTree.terminal _) => some rp
    | some (GameTree.chance bs) =>
      rpFold (calc_reach_probabilities brPlayer st root fuel)
        (bs.enum.map (fun p => (p.1, p.2.1))) path reach rp
    | some (GameTree.decision player infoSet bs) =>
      if player = brPlayer then
        rpFold (calc_reach_probabilities brPlayer st root fuel)
          (bs.enum.map (fun p => (p.1, 1))) path reach
          (rpMapInsert rp infoSet path reach)
      else
        rpFold (calc_reach_probabilities brPlayer st root fuel)
          (bs.enum.map
            (fun p => (p.1,
              (safe_get_strategy st bs.length infoSet).getD p.1 0)))
          path reach rp

/-- Weighted child loop of `calc_best_response_value` (chance nodes and the
opponent's nodes): `node_util += w * act_util`, threading the memo. -/
def brvWeightedLoop
    (recurse : List Nat → List (Nat × List ℚ) → Option (ℚ × List (Nat × List ℚ))) :
    List (Nat × ℚ) → List Nat → List (Nat × List ℚ) → ℚ →
    Option (ℚ × List (Nat × List ℚ))
  | [], _, memo, acc => some (acc, memo)
  | (i, w) :: rest, path, memo, acc =>
    match recurse (path ++ [i]) memo with
    | none => none
    | some (u, memo') => brvWeightedLoop recurse rest path memo' (acc + w * u)

/-- Sibling loop of `calc_best_response_value`: the utility of one action `a`
at an info set is the reach-probability-weighted sum over every concrete state
sharing the info set. -/
def brvSibLoop
    (recurse : List Nat → List (Nat × List ℚ) → Option (ℚ × List (Nat × List ℚ)))
    (a : Nat) :
    List (List Nat × ℚ) → List (Nat × List ℚ) → ℚ →
    Option (ℚ × List (Nat × List ℚ))
  | [], memo, acc => some (acc, memo)
  | (sib, w) :: rest, memo, acc =>
    match recurse (sib ++ [a]) memo with
    | none => none
    | some (u, memo') => brvSibLoop recurse a rest memo' (acc + w * u)

/-- Action loop of `calc_best_response_value`: one weighted sibling sum per
legal action. -/
def brvActsLoop
    (recurse : List Nat → List (Nat × List ℚ) → Option (ℚ × List (Nat × List ℚ)))
    (rpI : List (List Nat × ℚ)) :
    List Nat → List (Nat × List ℚ) → Option (List ℚ × List (Nat × List ℚ))
  | [], memo => some ([], memo)
  | a :: rest, memo =>
    match brvSibLoop recurse a rpI memo 0 with
    | none => none
    | some (u, memo') =>
      match brvActsLoop recurse rpI rest memo' with
      | none => none
      | some (us, memo'') => some (u :: us, memo'')

/-- `calc_best_response_value` (`src/cfr/src/eval.rs:139-232`): at the
best-response player's nodes, fill the per-info-set action-utility memo on
first visit (weighted over all sibling states from the reach-probability
pass), then recurse into the `max_index` action for the current state; at the
opponent's nodes follow `safe_get_strategy`; at chance nodes take the
expectation.  The `unwrap` of a missing reach-probability entry panics
(`none`). -/
def calc_best_response_value (root : GameTree) (brPlayer : Fin 2)
    (st : Nat → Option (List ℚ)) (rp : List (Nat × List (List Nat × ℚ))) :
    Nat → List Nat → List (Nat × List ℚ) → Option (ℚ × List (Nat × List ℚ))
  | 0, _, _ => none
  | fuel + 1, path, memo =>
    match subtreeAt root path with
    | none => none
    | some (GameTree.terminal p) => some (getp p brPlayer, memo)
    | some (GameTree.chance bs) =>
      brvWeightedLoop (calc_best_response_value root brPlayer st rp fuel)
        (bs.enum.map (fun p => (p.1, p.2.1))) path memo 0
    | some (GameTree.decision player infoSet bs) =>
      if player = brPlayer then
        match
          (match lookupA memo infoSet with
           | some _ => some memo
           | none =>
             match lookupA rp infoSet with
             | none => none
             | some rpI =>
               match brvActsLoop
                   (calc_best_response_value root brPlayer st rp fuel) rpI
                   (List.range bs.length) memo with
               | none => none
               | some (us, memo') => some (insertA memo' infoSet us)) with
        | none => none
        | some memo1 =>
          match lookupA memo1 infoSet with
          | none => none
          | some utilsI =>
            match max_index utilsI with
            | none => none
            | some bi =>
              calc_best_response_value root brPlayer st rp fuel
                (path ++ [bi]) memo1
      else
        brvWeightedLoop (calc_best_response_value root brPlayer st rp fuel)
          (bs.enum.map
            (fun p => (p.1,
              (safe_get_strategy st bs.length infoSet).getD p.1 0)))
          path memo 0

/-- Weighted child loop of `calc_expected_value`. -/
def evLoop (recurse : List Nat → Option ℚ) :
    List (Nat × ℚ) → List Nat → ℚ → Option ℚ
  | [], _, acc => some acc
  | (i, w) :: rest, path, acc =>
    match recurse (path ++ [i]) with
    | none => none
    | some u => evLoop recurse rest path (acc + w * u)

/-- `calc_expected_value` (`src/cfr/src/eval.rs:234-287`): plain expected
value of the game for `playerId` when player 0 follows `st0` and player 1
follows `st1` (via `safe_get_strategy`). -/
def calc_expected_value (root : GameTree) (playerId : Fin 2)
    (st0 st1 : Nat → Option (List ℚ)) : Nat → List Nat → Option ℚ
  | 0, _ => none
  | fuel + 1, path =>
    match subtreeAt root path with
    | none => none
    | some (GameTree.terminal p) => some (getp p playerId)
    | some (GameTree.chance bs) =>
      evLoop (calc_expected_value root playerId st0 st1 fuel)
        (bs.enum.map (fun p => (p.1, p.2.1))) path 0
    | some (GameTree.decision player infoSet bs) =>
      evLoop (calc_expected_value root playerId st0 st1 fuel)
        (bs.enum.map
          (fun p => (p.1,
            (safe_get_strategy (if player = 0 then st0 else st1) bs.length
              infoSet).getD p.1 0)))
        path 0

/-- The value `compute_exploitability` computes just before its final
`assert_ge!` (`src/cfr/src/eval.rs:289-349`): both reach-probability passes,
both memoized best-response passes, the two one-hot pure best-response
strategies, the two expected values, and their average. -/
def exploitabilityRaw (fuel : Nat) (root : GameTree)
    (st : Nat → Option (List ℚ)) : Option ℚ :=
  match calc_reach_probabilities 0 st root fuel [] 1 [] with
  | none => none
  | some rp0 =>
    match calc_reach_probabilities 1 st root fuel [] 1 [] with
    | none => none
    | some rp1 =>
      match calc_best_response_value root 0 st rp0 fuel [] [] with
      | none => none
      | some (_, brmap0) =>
        match calc_best_response_value root 1 st rp1 fuel [] [] with
        | none => none
        | some (_, brmap1) =>
          match best_response_utils_to_pure_strategy brmap0 with
          | none => none
          | some brPure0 =>
            match best_response_utils_to_pure_strategy brmap1 with
            | none => none
            | some brPure1 =>
              match calc_expected_value root 1 st
                  (fun I => lookupA brPure1 I) fuel [] with
              | none => none
              | some ev0 =>
                match calc_expected_value root 0
                    (fun I => lookupA brPure0 I) st fuel [] with
                | none => none
                | some ev1 => some ((ev0 + ev1) / 2)

/-- `compute_exploitability` with its always-on final assertion
`assert_ge!(exploitability, 0.0)`: a negative value panics (`none`). -/
def compute_exploitability (fuel : Nat) (root : GameTree)
    (st : Nat → Option (List ℚ)) : Option ℚ :=
  match exploitabilityRaw fuel root st with
  | none => none
  | some e => if 0 ≤ e then some e else none

/-- A contract-conforming game on which the evaluator's non-negativity
assertion fires.  Player 1 moves twice in a row; both second-level states
carry the same info set `2` (the game posits that the player does not recall
the first move — nothing in the `Game` contract forbids this).  Payouts are
zero-sum at every terminal.  Player 0 never moves. -/
def gameC3 : GameTree :=
  GameTree.decision 1 1
    [GameTree.decision 1 2
      [GameTree.terminal (1, -1), GameTree.terminal (-10, 10)],
     GameTree.decision 1 2
      [GameTree.terminal (1, -1), GameTree.terminal (13, -13)]]

/-- The evaluated strategy: pure action 0 at info set `1`, pure action 1 at
info set `2` — a probability distribution at every info set it is queried
for. -/
def sigmaC3Table : List (Nat × List ℚ) := [(1, [1, 0]), (2, [0, 1])]

def sigmaC3 : Nat → Option (List ℚ) := fun I => lookupA sigmaC3Table I

/-- C3 (the code violates the claim): on `gameC3` with the valid strategy
`sigmaC3`, `compute_exploitability` computes `(ev_0 + ev_1) / 2 = -11/2 < 0`
and its always-on `assert_ge!(exploitability, 0.0)` fires (the strategy earns
`10` for player 1, but the best-response pass — whose per-info-set
reach-probability weighting silently assumes the info-set structure has
perfect recall — credits the "best response" with only `-1`, and player 0's
best response cannot compensate).  Every strategy lookup in this run hits a
present table key, where the `Option`-model and the panicking `HashMap`
implementation agree (C10). -/
theorem compute_exploitability_assert_fires :
    exploitabilityRaw 4 gameC3 sigmaC3 = some (-(11 / 2)) ∧
    compute_exploitability 4 gameC3 sigmaC3 = none ∧
    (∀ I s, sigmaC3 I = some s → (∀ x ∈ s, 0 ≤ x) ∧ s.sum = 1) := by
  have hraw : exploitabilityRaw 4 gameC3 sigmaC3 = some (-(11 / 2)) := by
    norm_num [exploitabilityRaw, calc_reach_probabilities,
      calc_best_response_value, calc_expected_value, brvWeightedLoop,
      brvSibLoop, brvActsLoop, evLoop, rpFold, rpMapInsert, rpInsert,
      subtreeAt, gameC3, sigmaC3, sigmaC3Table, lookupA, insertA,
      safe_get_strategy, getp, max_index, maxIndexGo,
      best_response_utils_to_pure_strategy, List.enum, List.enumFrom,
      List.range_succ]
  refine ⟨hraw, ?_, ?_⟩
  · rw [compute_exploitability, hraw]
    norm_num
  · intro I s h
    simp only [sigmaC3, sigmaC3Table, lookupA] at h
    split_ifs at h with h1 h2
    · cases h
      constructor
      · intro x hx
        simp at hx
        rcases hx with hx | hx <;> simp [hx]
      · norm_num
    · cases h
      constructor
      · intro x hx
        simp at hx
        rcases hx with hx | hx <;> simp [hx]
      · norm_num

/-! ## The concrete games (`src/cfr/src/games/{kuhn,dudo,leduc}.rs`)

Embedded with their own state types (not the solver-side `GameTree`), `f64`
payouts as exact rationals, and every Rust panic (`PlayerId::index` on
`Chance`, `opponent` on `Chance` or `Player(i ≥ 2)`, out-of-bounds array
indexing, `unwrap`) as `none`. -/

/-- `PlayerId` (`src/cfr/src/games.rs`). -/
inductive PlayerId where
  | chance
  | player (i : Nat)
deriving Repr, DecidableEq

/-- `PlayerId::index`: the player index; panics for `Chance`. -/
def PlayerId.index : PlayerId → Option Nat
  | PlayerId.chance => none
  | PlayerId.player i => some i

/-- `PlayerId::opponent`: `0 ↔ 1`; panics (`todo!`/`panic!`) otherwise. -/
def PlayerId.opponent : PlayerId → Option PlayerId
  | PlayerId.player 0 => some (PlayerId.player 1)
  | PlayerId.player 1 => some (PlayerId.player 0)
  | _ => none

/-- Index a two-entry Rust array modelled as a pair; out of bounds panics. -/
def getIdx2 {α : Type} (p : α × α) : Nat → Option α
  | 0 => some p.1
  | 1 => some p.2
  | _ => none

/-- Write one entry of a two-entry Rust array; out of bounds panics. -/
def setIdx2 {α : Type} (p : α × α) : Nat → α → Option (α × α)
  | 0, v => some (v, p.2)
  | 1, v => some (p.1, v)
  | _, _ => none

namespace Kuhn

/-- `Card`: `Jack = 0 < Queen = 1 < King = 2`. -/
inductive Card where
  | jack
  | queen
  | king
deriving Repr, DecidableEq

def cardVal : Card → Nat
  | Card.jack => 0
  | Card.queen => 1
  | Card.king => 2

inductive KuhnAction where
  | pass
  | bet
  | chanceDealCards (cards : Card × Card)
deriving Repr, DecidableEq

/-- `KuhnState`. -/
structure KuhnState where
  next_player_id : PlayerId
  actions : Option KuhnAction × Option KuhnAction
  cards : Card × Card
  pot : Int
deriving Repr, DecidableEq

/-- `Kuhn::new_root`. -/
def new_root : KuhnState :=
  { next_player_id := PlayerId.chance
    actions := (none, none)
    cards := (Card.jack, Card.jack)
    pot := 2 }

/-- `Kuhn::is_terminal`.  The fold check indexes
`actions[next_player.index()]` first (out of bounds for `Player(i ≥ 2)` is a
panic); `opponent()` is only reached when that entry is a `Bet` (Rust `&&`
short-circuits). -/
def is_terminal (s : KuhnState) : Option Bool :=
  match s.next_player_id with
  | PlayerId.chance => some false
  | PlayerId.player i =>
    match getIdx2 s.actions i with
    | none => none
    | some mine =>
      if mine = some KuhnAction.bet then
        match PlayerId.opponent (PlayerId.player i) with
        | none => none
        | some opp =>
          match opp.index with
          | none => none
          | some oi =>
            match getIdx2 s.actions oi with
            | none => none
            | some theirs =>
              if theirs = some KuhnAction.pass then some true
              else
                some (decide
                  ((s.actions.1 = some KuhnAction.pass ∧
                    s.actions.2 = some KuhnAction.pass) ∨
                   (s.actions.1 = some KuhnAction.bet ∧
                    s.actions.2 = some KuhnAction.bet)))
      else
        some (decide
          ((s.actions.1 = some KuhnAction.pass ∧
            s.actions.2 = some KuhnAction.pass) ∨
           (s.actions.1 = some KuhnAction.bet ∧
            s.actions.2 = some KuhnAction.bet)))

/-- `Kuhn::get_payouts` (defined only on terminal states; the `_ => panic!()`
arm is `none`). -/
def get_payouts (s : KuhnState) : Option (ℚ × ℚ) :=
  if s.actions.1 = some KuhnAction.bet ∧ s.actions.2 = some KuhnAction.pass
  then some (1, -1)
  else
    let win := cardVal s.cards.1 > cardVal s.cards.2
    match s.actions.1, s.actions.2 with
    | some KuhnAction.pass, some KuhnAction.bet => some (-1, 1)
    | some KuhnAction.bet, some KuhnAction.pass => some (1, -1)
    | some KuhnAction.pass, some KuhnAction.pass =>
      if win then some (1, -1) else some (-1, 1)
    | some KuhnAction.bet, some KuhnAction.bet =>
      if win then some (2, -2) else some (-2, 2)
    | _, _ => none

/-- `Kuhn::with_action`. -/
def with_action (s : KuhnState) (a : KuhnAction) : Option KuhnState :=
  match a with
  | KuhnAction.pass =>
    match s.next_player_id.index with
    | none => none
    | some i =>
      match setIdx2 s.actions i (some KuhnAction.pass) with
      | none => none
      | some acts =>
        match s.next_player_id.opponent with
        | none => none
        | some opp =>
          some { s with actions := acts, next_player_id := opp }
  | KuhnAction.bet =>
    match s.next_player_id.index with
    | none => none
    | some i =>
      match setIdx2 s.actions i (some KuhnAction.bet) with
      | none => none
      | some acts =>
        match s.next_player_id.opponent with
        | none => none
        | some opp =>
          some { s with actions := acts, next_player_id := opp, pot := s.pot + 1 }
  | KuhnAction.chanceDealCards c =>
    some { s with next_player_id := PlayerId.player 0, cards := c }

/-- States reachable from the root by repeatedly applying `with_action` to
non-terminal states (a superset of play along the listed legal actions, since
arbitrary actions are allowed whenever they do not panic). -/
inductive KuhnReachable : KuhnState → Prop where
  | root : KuhnReachable new_root
  | step (s s' : KuhnState) (a : KuhnAction) : KuhnReachable s →
      is_terminal s = some false → with_action s a = some s' → KuhnReachable s'

/-- A Kuhn terminal state always has one of the four fully-played action
profiles. -/
theorem kuhn_terminal_actions (s : KuhnState) (h : is_terminal s = some true) :
    (s.actions.1 = some KuhnAction.pass ∧ s.actions.2 = some KuhnAction.pass) ∨
    (s.actions.1 = some KuhnAction.bet ∧ s.actions.2 = some KuhnAction.bet) ∨
    (s.actions.1 = some KuhnAction.bet ∧ s.actions.2 = some KuhnAction.pass) ∨
    (s.actions.1 = some KuhnAction.pass ∧ s.actions.2 = some KuhnAction.bet) := by
  unfold is_terminal at h
  cases hp : s.next_player_id with
  | chance => rw [hp] at h; simp at h
  | player i =>
    rw [hp] at h
    match i with
    | 0 =>
      simp only [getIdx2] at h
      by_cases hb : s.actions.1 = some KuhnAction.bet
      · rw [if_pos hb] at h
        simp only [PlayerId.opponent, PlayerId.index, getIdx2] at h
        by_cases hpass : s.actions.2 = some KuhnAction.pass
        · exact Or.inr (Or.inr (Or.inl ⟨hb, hpass⟩))
        · rw [if_neg hpass] at h
          simp only [Option.some_inj, decide_eq_true_eq] at h
          tauto
      · rw [if_neg hb] at h
        simp only [Option.some_inj, decide_eq_true_eq] at h
        tauto
    | 1 =>
      simp only [getIdx2] at h
      by_cases hb : s.actions.2 = some KuhnAction.bet
      · rw [if_pos hb] at h
        simp only [PlayerId.opponent, PlayerId.index, getIdx2] at h
        by_cases hpass : s.actions.1 = some KuhnAction.pass
        · exact Or.inr (Or.inr (Or.inr ⟨hpass, hb⟩))
        · rw [if_neg hpass] at h
          simp only [Option.some_inj, decide_eq_true_eq] at h
          tauto
      · rw [if_neg hb] at h
        simp only [Option.some_inj, decide_eq_true_eq] at h
        tauto
    | i + 2 => simp [getIdx2] at h

/-- Every Kuhn terminal state (reachable or not) has defined payouts summing
to zero. -/
theorem kuhn_payouts_zero_sum (s : KuhnState) (h : is_terminal s = some true) :
    ∃ p : ℚ × ℚ, get_payouts s = some p ∧ p.1 + p.2 = 0 := by
  rcases kuhn_terminal_actions s h with ⟨h1, h2⟩ | ⟨h1, h2⟩ | ⟨h1, h2⟩ | ⟨h1, h2⟩
  · by_cases hw : cardVal s.cards.1 > cardVal s.cards.2
    · exact ⟨(1, -1), by simp [get_payouts, h1, h2, hw], by norm_num⟩
    · exact ⟨(-1, 1), by simp [get_payouts, h1, h2, hw], by norm_num⟩
  · by_cases hw : cardVal s.cards.1 > cardVal s.cards.2
    · exact ⟨(2, -2), by simp [get_payouts, h1, h2, hw], by norm_num⟩
    · exact ⟨(-2, 2), by simp [get_payouts, h1, h2, hw], by norm_num⟩
  · exact ⟨(1, -1), by simp [get_payouts, h1, h2], by norm_num⟩
  · exact ⟨(-1, 1), by simp [get_payouts, h1, h2], by norm_num⟩

end Kuhn

namespace Dudo

/-- `Claim { count: i32, rank: usize }`. -/
structure DClaim where
  count : Int
  rank : Nat
deriving Repr, DecidableEq

/-- `RollResult { count: [i32; 6] }`, the per-face die counts. -/
structure RollResult where
  c0 : Int
  c1 : Int
  c2 : Int
  c3 : Int
  c4 : Int
  c5 : Int
deriving Repr, DecidableEq

/-- `RollResult::new_none`: `[-1; 6]`. -/
def RollResult.new_none : RollResult := ⟨-1, -1, -1, -1, -1, -1⟩

/-- Index `count[dice]`; out of bounds panics. -/
def RollResult.getCount (r : RollResult) : Nat → Option Int
  | 0 => some r.c0
  | 1 => some r.c1
  | 2 => some r.c2
  | 3 => some r.c3
  | 4 => some r.c4
  | 5 => some r.c5
  | _ => none

/-- `RollResult::count_dice`: face `0` (ones) counts alone, any other face
counts itself plus the wild ones. -/
def RollResult.count_dice (r : RollResult) (dice : Nat) : Option Int :=
  if dice = 0 then some r.c0
  else
    match r.getCount dice with
    | none => none
    | some cd => some (r.c0 + cd)

inductive DudoAction where
  | claim (c : DClaim)
  | dudo
  | chanceRollDices (rolls : RollResult × RollResult)
deriving Repr, DecidableEq

/-- `DudoState`. -/
structure DudoState where
  round : Nat
  node_player_id : PlayerId
  prev_winner : PlayerId
  action_history : List DudoAction
  player_rolls : RollResult × RollResult
  dice_count : Int × Int
deriving Repr, DecidableEq

/-- `DudoState::new_root`. -/
def new_root : DudoState :=
  { round := 0
    node_player_id := PlayerId.chance
    prev_winner := PlayerId.player 0
    action_history := []
    player_rolls := (RollResult.new_none, RollResult.new_none)
    dice_count := (1, 1) }

/-- `DudoState::is_terminal`: some player has no dice left. -/
def is_terminal (s : DudoState) : Bool :=
  s.dice_count.1 = 0 ∨ s.dice_count.2 = 0

/-- `DudoState::get_payouts`: `-1` for a player with zero dice, `+1`
otherwise. -/
def get_payouts (s : DudoState) : ℚ × ℚ :=
  ((if s.dice_count.1 = 0 then -1 else 1),
   (if s.dice_count.2 = 0 then -1 else 1))

/-- `DudoState::current_claim`: the last history entry if it is a claim. -/
def current_claim (s : DudoState) : Option DClaim :=
  match s.action_history.getLast? with
  | some (DudoAction.claim c) => some c
  | _ => none

/-- `DudoState::opponent_player_id` — note the source ignores its argument and
reads `self.node_player_id` (`Player(i) → Player(i ^ 1)`, panic for
`Chance`). -/
def opponent_player_id (s : DudoState) : Option PlayerId :=
  match s.node_player_id with
  | PlayerId.chance => none
  | PlayerId.player i => some (PlayerId.player (i ^^^ 1))

/-- `DudoState::update_chance`. -/
def update_chance (s : DudoState) (rolls : RollResult × RollResult) :
    DudoState :=
  { s with player_rolls := rolls, node_player_id := s.prev_winner }

/-- `DudoState::update_claim`. -/
def update_claim (s : DudoState) (c : DClaim) : Option DudoState :=
  match opponent_player_id s with
  | none => none
  | some opp =>
    some { s with
      node_player_id := opp
      action_history := s.action_history ++ [DudoAction.claim c] }

/-- One arm of `update_dudo`'s `match actual.cmp(&claimed)`: the `loser`
drops to `newCnt old` dice; `prev_winner` is `opponent_player_id` (which in
the source reads `node_player_id`, not its argument), the history is cleared
and the round advances. -/
def dudoResolve (s : DudoState) (loser : PlayerId) (newCnt : Int → Int) :
    Option DudoState :=
  (loser.index).bind fun li =>
  (getIdx2 s.dice_count li).bind fun old =>
  (setIdx2 s.dice_count li (newCnt old)).bind fun dc =>
  (opponent_player_id s).map fun pw =>
    { s with
      dice_count := dc
      prev_winner := pw
      action_history := []
      round := s.round + 1 }

/-- `DudoState::update_dudo`: compare the actual count of the claimed face
against the claim; the loser (the challenger on a tie or overcount, the
challenged player on an undercount) drops one die (exact tie) or `diff` dice,
floored at zero (`0.max(dice - diff)`). -/
def update_dudo (s : DudoState) : Option DudoState :=
  (opponent_player_id s).bind fun challenged =>
  (current_claim s).bind fun cc =>
  (s.player_rolls.1.count_dice cc.rank).bind fun a1 =>
  (s.player_rolls.2.count_dice cc.rank).bind fun a2 =>
  if a1 + a2 = cc.count then
    dudoResolve s s.node_player_id (fun old => old - 1)
  else if a1 + a2 > cc.count then
    dudoResolve s s.node_player_id
      (fun old => max 0 (old - (a1 + a2 - cc.count)))
  else
    dudoResolve s challenged (fun old => max 0 (old - (cc.count - (a1 + a2))))

/-- `DudoState::with_action`. -/
def with_action (s : DudoState) (a : DudoAction) : Option DudoState :=
  match a with
  | DudoAction.claim c => update_claim s c
  | DudoAction.dudo => update_dudo s
  | DudoAction.chanceRollDices rolls => some (update_chance s rolls)

inductive DudoReachable : DudoState → Prop where
  | root : DudoReachable new_root
  | step (s s' : DudoState) (a : DudoAction) : DudoReachable s →
      is_terminal s = false → with_action s a = some s' → DudoReachable s'

/-- What a dudo resolution does to the dice counts: from one die each, with a
new-count function that sends `1` to `0`, exactly the loser's side is
zeroed. -/
theorem dudoResolve_dice (s s' : DudoState) (loser : PlayerId)
    (newCnt : Int → Int) (hs : s.dice_count = (1, 1)) (hz : newCnt 1 = 0)
    (h : dudoResolve s loser newCnt = some s') :
    s'.dice_count = (0, 1) ∨ s'.dice_count = (1, 0) := by
  simp only [dudoResolve, Option.bind_eq_some, Option.map_eq_some'] at h
  obtain ⟨li, hli, old, hold, dc, hdc, pw, hpw, heq⟩ := h
  have h1 : s.dice_count.1 = 1 := by rw [hs]
  have h2 : s.dice_count.2 = 1 := by rw [hs]
  rcases li with _ | _ | li
  · simp only [getIdx2, Option.some_inj] at hold
    simp only [setIdx2, Option.some_inj] at hdc
    refine Or.inl ?_
    rw [← heq]
    show dc = (0, 1)
    rw [← hdc]
    have ho : old = 1 := hold ▸ h1
    rw [ho, hz, h2]
  · simp only [getIdx2, Option.some_inj] at hold
    simp only [setIdx2, Option.some_inj] at hdc
    refine Or.inr ?_
    rw [← heq]
    show dc = (1, 0)
    rw [← hdc]
    have ho : old = 1 := hold ▸ h2
    rw [ho, hz, h1]
  · simp [setIdx2] at hdc

/-- The dice-count invariant: from the one-die-each root, any non-terminal
reachable state still has `(1, 1)`, and a dudo resolution zeroes exactly one
side. -/
theorem dudo_dice_invariant (s : DudoState) (h : DudoReachable s) :
    s.dice_count = (1, 1) ∨ s.dice_count = (0, 1) ∨ s.dice_count = (1, 0) := by
  induction h with
  | root => exact Or.inl rfl
  | step s s' a _ hterm hact ih =>
    have hs : s.dice_count = (1, 1) := by
      rcases ih with h1 | h1 | h1
      · exact h1
      · exfalso; rw [is_terminal, h1] at hterm; simp at hterm
      · exfalso; rw [is_terminal, h1] at hterm; simp at hterm
    match a with
    | DudoAction.chanceRollDices rolls =>
      simp only [with_action, update_chance, Option.some_inj] at hact
      rw [← hact]
      exact Or.inl hs
    | DudoAction.claim c =>
      simp only [with_action, update_claim] at hact
      cases hopp : opponent_player_id s with
      | none => rw [hopp] at hact; simp at hact
      | some opp =>
        rw [hopp] at hact
        simp only [Option.some_inj] at hact
        rw [← hact]
        exact Or.inl hs
    | DudoAction.dudo =>
      simp only [with_action, update_dudo, Option.bind_eq_some] at hact
      obtain ⟨challenged, hopp, cc, hcc, a1, ha1, a2, ha2, hres⟩ := hact
      by_cases hq : a1 + a2 = cc.count
      · rw [if_pos hq] at hres
        rcases dudoResolve_dice s s' _ _ hs (by norm_num) hres with hd | hd
        · exact Or.inr (Or.inl hd)
        · exact Or.inr (Or.inr hd)
      · rw [if_neg hq] at hres
        by_cases hgt : a1 + a2 > cc.count
        · rw [if_pos hgt] at hres
          rcases dudoResolve_dice s s' _ _ hs (by omega) hres with hd | hd
          · exact Or.inr (Or.inl hd)
          · exact Or.inr (Or.inr hd)
        · rw [if_neg hgt] at hres
          rcases dudoResolve_dice s s' _ _ hs (by omega) hres with hd | hd
          · exact Or.inr (Or.inl hd)
          · exact Or.inr (Or.inr hd)

/-- Every reachable Dudo terminal state has payouts summing to zero (exactly
one player is out of dice). -/
theorem dudo_payouts_zero_sum (s : DudoState) (hr : DudoReachable s)
    (ht : is_terminal s = true) :
    (get_payouts s).1 + (get_payouts s).2 = 0 := by
  rcases dudo_dice_invariant s hr with h | h | h
  · exfalso
    rw [is_terminal, h] at ht
    simp at ht
  · simp [get_payouts, h]
  · simp [get_payouts, h]

end Dudo

namespace Leduc

/-- `Rank`: `Jack = 0 < Queen = 1 < King = 2` (discriminant order). -/
inductive LRank where
  | jack
  | queen
  | king
deriving Repr, DecidableEq

def rankVal : LRank → Nat
  | LRank.jack => 0
  | LRank.queen => 1
  | LRank.king => 2

inductive LeducAction where
  | check
  | raise
  | call
  | fold
  | chanceDealCards (holes : LRank × LRank) (community : LRank)
deriving Repr, DecidableEq

inductive LeducRound where
  | preflop
  | flop
  | folded (p : PlayerId)
  | showdown
deriving Repr, DecidableEq

/-- `LeducRound::next`; panics on `ShowDown`/`Folded`. -/
def LeducRound.next : LeducRound → Option LeducRound
  | LeducRound.preflop => some LeducRound.flop
  | LeducRound.flop => some LeducRound.showdown
  | _ => none

/-- `LeducState`. -/
structure LeducState where
  next_player_id : PlayerId
  round : LeducRound
  actions : List LeducAction
  hole_cards : Option (LRank × LRank)
  community_card : Option LRank
  bets : Int × Int
  raise_count : Int
deriving Repr, DecidableEq

/-- `Leduc::new_root`. -/
def new_root : LeducState :=
  { next_player_id := PlayerId.chance
    round := LeducRound.preflop
    actions := []
    hole_cards := none
    community_card := none
    bets := (1, 1)
    raise_count := 0 }

/-- `LeducState::raise_amount`; panics outside Preflop/Flop. -/
def raise_amount (s : LeducState) : Option Int :=
  match s.round with
  | LeducRound.preflop => some 2
  | LeducRound.flop => some 4
  | _ => none

/-- `Leduc::is_terminal`. -/
def is_terminal (s : LeducState) : Bool :=
  match s.round with
  | LeducRound.folded _ => true
  | LeducRound.showdown => true
  | _ => false

/-- `LeducState::calc_hand_rank`: sort the two cards descending, then pack
`pair? | higher-rank | lower-rank` into 2-bit fields (`(r << 2) | v` is
`r * 4 + v` for `v < 4`). -/
def calc_hand_rank (c : LRank × LRank) : Nat :=
  let hi := if rankVal c.1 < rankVal c.2 then c.2 else c.1
  let lo := if rankVal c.1 < rankVal c.2 then c.1 else c.2
  ((if rankVal hi = rankVal lo then 1 else 0) * 4 + rankVal hi) * 4 + rankVal lo

/-- Common tail of `LeducState::update`: either advance the round (resetting
`raise_count` and giving player 0 the turn) or pass the turn to the opponent;
then record the action. -/
def leducFinish (s : LeducState) (a : LeducAction) (goToNext : Bool) :
    Option LeducState :=
  if goToNext then
    (s.round.next).map fun rn =>
      { s with
        round := rn
        raise_count := 0
        next_player_id := PlayerId.player 0
        actions := s.actions ++ [a] }
  else
    (s.next_player_id.opponent).map fun opp =>
      { s with next_player_id := opp, actions := s.actions ++ [a] }

/-- `LeducState::update` (the `debug_assert!(is_valid_action)` is a
debug-build assertion and does not gate release behaviour). -/
def update (s : LeducState) (a : LeducAction) : Option LeducState :=
  match a with
  | LeducAction.chanceDealCards hc cc =>
    some { s with
      hole_cards := some hc
      community_card := some cc
      next_player_id := PlayerId.player 0 }
  | LeducAction.check =>
    (s.next_player_id.index).bind fun p =>
    leducFinish s LeducAction.check (p = 1)
  | LeducAction.raise =>
    (s.next_player_id.index).bind fun p =>
    (s.next_player_id.opponent).bind fun opp =>
    (opp.index).bind fun o =>
    (raise_amount s).bind fun ra =>
    (getIdx2 s.bets o).bind fun bo =>
    (setIdx2 s.bets p (bo + ra)).bind fun bets' =>
    leducFinish { s with raise_count := s.raise_count + 1, bets := bets' }
      LeducAction.raise false
  | LeducAction.call =>
    (s.next_player_id.index).bind fun p =>
    (s.next_player_id.opponent).bind fun opp =>
    (opp.index).bind fun o =>
    (getIdx2 s.bets o).bind fun bo =>
    (setIdx2 s.bets p bo).bind fun bets' =>
    leducFinish { s with bets := bets' } LeducAction.call true
  | LeducAction.fold =>
    leducFinish { s with round := LeducRound.folded s.next_player_id }
      LeducAction.fold false

/-- Common payout tail of `Leduc::get_payouts`:
`ret[winner] = bets[loser]; ret[loser] = -bets[loser]` on a `[0.0, 0.0]`
array. -/
def leducRet (s : LeducState) (winner loser : Nat) : Option (ℚ × ℚ) :=
  (getIdx2 s.bets loser).bind fun lb =>
  (setIdx2 ((0 : ℚ), (0 : ℚ)) winner (lb : ℚ)).bind fun r1 =>
  setIdx2 r1 loser (-(lb : ℚ))

/-- `Leduc::get_payouts`: the folder loses their bet; at showdown the better
`calc_hand_rank` wins the loser's bet, an equal rank is a `(0, 0)` draw;
panics (`none`) outside terminal rounds or on missing cards. -/
def get_payouts (s : LeducState) : Option (ℚ × ℚ) :=
  match s.round with
  | LeducRound.folded pid =>
    (pid.index).bind fun li =>
    (pid.opponent).bind fun opp =>
    (opp.index).bind fun wi =>
    leducRet s wi li
  | LeducRound.showdown =>
    (s.hole_cards).bind fun hc =>
    (s.community_card).bind fun cc =>
    if calc_hand_rank (hc.1, cc) = calc_hand_rank (hc.2, cc) then
      some (0, 0)
    else if calc_hand_rank (hc.1, cc) > calc_hand_rank (hc.2, cc) then
      leducRet s 0 1
    else
      leducRet s 1 0
  | _ => none

inductive LeducReachable : LeducState → Prop where
  | root : LeducReachable new_root
  | step (s s' : LeducState) (a : LeducAction) : LeducReachable s →
      is_terminal s = false → update s a = some s' → LeducReachable s'

/-- Invariant maintained along reachable states: once a concrete player is to
act the cards are dealt, a showdown only arises with dealt cards, and a fold
only records a concrete player. -/
def LeducInv (s : LeducState) : Prop :=
  (s.next_player_id ≠ PlayerId.chance →
    s.hole_cards.isSome ∧ s.community_card.isSome) ∧
  (s.round = LeducRound.showdown →
    s.hole_cards.isSome ∧ s.community_card.isSome) ∧
  (∀ pid, s.round = LeducRound.folded pid →
    pid = PlayerId.player 0 ∨ pid = PlayerId.player 1)

theorem leduc_nonterminal_round (s : LeducState) (h : is_terminal s = false) :
    s.round = LeducRound.preflop ∨ s.round = LeducRound.flop := by
  unfold is_terminal at h
  cases hr : s.round <;> rw [hr] at h <;> simp at h <;> simp

theorem leducFinish_inv (s : LeducState) (a : LeducAction) (g : Bool)
    (s' : LeducState)
    (hcards : s.hole_cards.isSome ∧ s.community_card.isSome)
    (hround : s.round = LeducRound.preflop ∨ s.round = LeducRound.flop)
    (hfold : ∀ pid, s.round = LeducRound.folded pid →
      pid = PlayerId.player 0 ∨ pid = PlayerId.player 1)
    (h : leducFinish s a g = some s') : LeducInv s' := by
  unfold leducFinish at h
  cases g with
  | true =>
    simp only [if_true, Option.map_eq_some'] at h
    obtain ⟨rn, hrn, heq⟩ := h
    refine ⟨?_, ?_, ?_⟩ <;> rw [← heq]
    · intro _
      exact hcards
    · intro _
      exact hcards
    · intro pid hpid
      simp only at hpid
      rcases hround with hr | hr <;> rw [hr] at hrn <;>
        simp [LeducRound.next] at hrn <;> rw [← hrn] at hpid <;> simp at hpid
  | false =>
    simp only [Bool.false_eq_true, if_false, Option.map_eq_some'] at h
    obtain ⟨opp, hopp, heq⟩ := h
    refine ⟨?_, ?_, ?_⟩ <;> rw [← heq]
    · intro _
      exact hcards
    · intro hsd
      simp only at hsd
      rcases hround with hr | hr <;> rw [hr] at hsd <;> simp at hsd
    · intro pid hpid
      simp only at hpid
      exact hfold pid hpid

theorem leduc_inv (s : LeducState) (h : LeducReachable s) : LeducInv s := by
  induction h with
  | root =>
    refine ⟨fun hc => absurd rfl hc, fun hsd => by simp [new_root] at hsd,
      fun pid hpid => by simp [new_root] at hpid⟩
  | step s s' a _ hterm hact ih =>
    obtain ⟨ih1, ih2, ih3⟩ := ih
    have hround := leduc_nonterminal_round s hterm
    match a with
    | LeducAction.chanceDealCards hc cc =>
      simp only [update, Option.some_inj] at hact
      refine ⟨?_, ?_, ?_⟩ <;> rw [← hact]
      · intro _
        exact ⟨rfl, rfl⟩
      · intro hsd
        simp only at hsd
        rcases hround with hr | hr <;> rw [hr] at hsd <;> simp at hsd
      · intro pid hpid
        simp only at hpid
        rcases hround with hr | hr <;> rw [hr] at hpid <;> simp at hpid
    | LeducAction.check =>
      simp only [update, Option.bind_eq_some] at hact
      obtain ⟨p, hp, hfin⟩ := hact
      have hnp : s.next_player_id ≠ PlayerId.chance := by
        intro hc
        rw [hc] at hp
        simp [PlayerId.index] at hp
      exact leducFinish_inv _ _ _ _ (ih1 hnp) hround
        (fun pid hpid => ih3 pid hpid) hfin
    | LeducAction.raise =>
      simp only [update, Option.bind_eq_some] at hact
      obtain ⟨p, hp, opp, hopp, o, ho, ra, hra, bo, hbo, bets', hbets, hfin⟩ :=
        hact
      have hnp : s.next_player_id ≠ PlayerId.chance := by
        intro hc
        rw [hc] at hp
        simp [PlayerId.index] at hp
      exact leducFinish_inv
        { s with raise_count := s.raise_count + 1, bets := bets' }
        LeducAction.raise false s' (ih1 hnp) hround
        (fun pid hpid => ih3 pid hpid) hfin
    | LeducAction.call =>
      simp only [update, Option.bind_eq_some] at hact
      obtain ⟨p, hp, opp, hopp, o, ho, bo, hbo, bets', hbets, hfin⟩ := hact
      have hnp : s.next_player_id ≠ PlayerId.chance := by
        intro hc
        rw [hc] at hp
        simp [PlayerId.index] at hp
      exact leducFinish_inv { s with bets := bets' } LeducAction.call true s'
        (ih1 hnp) hround (fun pid hpid => ih3 pid hpid) hfin
    | LeducAction.fold =>
      -- the fold round is `Folded(next_player_id)`, and the common tail's
      -- `opponent()` call pins `next_player_id` to a concrete player
      unfold update leducFinish at hact
      simp only [Bool.false_eq_true, if_false, Option.map_eq_some'] at hact
      obtain ⟨opp, hopp, heq⟩ := hact
      have hnp : s.next_player_id = PlayerId.player 0 ∨
          s.next_player_id = PlayerId.player 1 := by
        cases hq : s.next_player_id with
        | chance => rw [hq] at hopp; simp [PlayerId.opponent] at hopp
        | player i =>
          match i with
          | 0 => exact Or.inl rfl
          | 1 => exact Or.inr rfl
          | i + 2 => rw [hq] at hopp; simp [PlayerId.opponent] at hopp
      have hnpc : s.next_player_id ≠ PlayerId.chance := by
        rcases hnp with hq | hq <;> rw [hq] <;> intro hc <;> cases hc
      refine ⟨?_, ?_, ?_⟩ <;> rw [← heq]
      · intro _
        exact ih1 hnpc
      · intro hsd
        simp at hsd
      · intro pid hpid
        simp only at hpid
        cases hpid
        exact hnp

theorem leducRet_zero_sum (s : LeducState) (wi li : Nat) (hne : wi ≠ li)
    (hwi : wi < 2) (hli : li < 2) :
    ∃ p : ℚ × ℚ, leducRet s wi li = some p ∧ p.1 + p.2 = 0 := by
  unfold leducRet
  match wi, li with
  | 0, 1 =>
    refine ⟨((s.bets.2 : ℚ), -(s.bets.2 : ℚ)), ?_, by ring⟩
    simp [getIdx2, setIdx2]
  | 1, 0 =>
    refine ⟨(-(s.bets.1 : ℚ), (s.bets.1 : ℚ)), ?_, by ring⟩
    simp [getIdx2, setIdx2]
  | 0, 0 => exact absurd rfl hne
  | 1, 1 => exact absurd rfl hne

/-- Every reachable Leduc terminal state has defined payouts summing to zero
(a showdown draw pays `(0, 0)`). -/
theorem leduc_payouts_zero_sum (s : LeducState) (hr : LeducReachable s)
    (ht : is_terminal s = true) :
    ∃ p : ℚ × ℚ, get_payouts s = some p ∧ p.1 + p.2 = 0 := by
  obtain ⟨_, inv2, inv3⟩ := leduc_inv s hr
  unfold get_payouts
  cases hround : s.round with
  | preflop => simp [is_terminal, hround] at ht
  | flop => simp [is_terminal, hround] at ht
  | folded pid =>
    rcases inv3 pid hround with hp | hp <;> rw [hp] <;>
      simp only [PlayerId.index, PlayerId.opponent, Option.bind_eq_some]
    · obtain ⟨p, hret, hsum⟩ := leducRet_zero_sum s 1 0 (by omega) (by omega)
        (by omega)
      exact ⟨p, ⟨0, rfl, PlayerId.player 1, rfl, 1, rfl, hret⟩, hsum⟩
    · obtain ⟨p, hret, hsum⟩ := leducRet_zero_sum s 0 1 (by omega) (by omega)
        (by omega)
      exact ⟨p, ⟨1, rfl, PlayerId.player 0, rfl, 0, rfl, hret⟩, hsum⟩
  | showdown =>
    obtain ⟨hhole, hcomm⟩ := inv2 hround
    obtain ⟨hc, hhc⟩ := Option.isSome_iff_exists.mp hhole
    obtain ⟨cc, hcc⟩ := Option.isSome_iff_exists.mp hcomm
    rw [hhc, hcc]
    simp only [Option.bind_eq_some]
    by_cases hq : calc_hand_rank (hc.1, cc) = calc_hand_rank (hc.2, cc)
    · exact ⟨(0, 0), ⟨hc, rfl, cc, rfl, by rw [if_pos hq]⟩, by norm_num⟩
    · by_cases hgt : calc_hand_rank (hc.1, cc) > calc_hand_rank (hc.2, cc)
      · obtain ⟨p, hret, hsum⟩ := leducRet_zero_sum s 0 1 (by omega) (by omega)
          (by omega)
        exact ⟨p, ⟨hc, rfl, cc, rfl, by rw [if_neg hq, if_pos hgt]; exact hret⟩,
          hsum⟩
      · obtain ⟨p, hret, hsum⟩ := leducRet_zero_sum s 1 0 (by omega) (by omega)
          (by omega)
        exact ⟨p, ⟨hc, rfl, cc, rfl, by rw [if_neg hq, if_neg hgt]; exact hret⟩,
          hsum⟩

end Leduc

/-- C7: for every reachable terminal state of the Kuhn, Dudo and Leduc games,
`get_payouts` returns a two-entry payout vector with
`payouts[0] + payouts[1] = 0` (a draw value `(0, 0)`, as at a Leduc showdown
tie, still sums to zero).  For Kuhn the result holds for every terminal state,
reachable or not; for Dudo and Leduc reachability supplies the dice-count and
dealt-cards invariants the payout code relies on. -/
theorem reachable_terminal_payouts_zero_sum :
    (∀ s, Kuhn.KuhnReachable s → Kuhn.is_terminal s = some true →
      ∃ p : ℚ × ℚ, Kuhn.get_payouts s = some p ∧ p.1 + p.2 = 0) ∧
    (∀ s, Dudo.DudoReachable s → Dudo.is_terminal s = true →
      (Dudo.get_payouts s).1 + (Dudo.get_payouts s).2 = 0) ∧
    (∀ s, Leduc.LeducReachable s → Leduc.is_terminal s = true →
      ∃ p : ℚ × ℚ, Leduc.get_payouts s = some p ∧ p.1 + p.2 = 0) :=
  ⟨fun s _ ht => Kuhn.kuhn_payouts_zero_sum s ht,
   Dudo.dudo_payouts_zero_sum,
   Leduc.leduc_payouts_zero_sum⟩

def kuhnWit1 : Kuhn.KuhnState :=
  { next_player_id := PlayerId.player 0
    actions := (none, none)
    cards := (Kuhn.Card.king, Kuhn.Card.jack)
    pot := 2 }

def kuhnWit2 : Kuhn.KuhnState :=
  { next_player_id := PlayerId.player 1
    actions := (some Kuhn.KuhnAction.bet, none)
    cards := (Kuhn.Card.king, Kuhn.Card.jack)
    pot := 3 }

/-- Kuhn terminal after deal (K, J), bet, pass: player 1 folded. -/
def kuhnWit3 : Kuhn.KuhnState :=
  { next_player_id := PlayerId.player 0
    actions := (some Kuhn.KuhnAction.bet, some Kuhn.KuhnAction.pass)
    cards := (Kuhn.Card.king, Kuhn.Card.jack)
    pot := 3 }

def dudoWit1 : Dudo.DudoState :=
  { round := 0
    node_player_id := PlayerId.player 0
    prev_winner := PlayerId.player 0
    action_history := []
    player_rolls := (⟨1, 0, 0, 0, 0, 0⟩, ⟨0, 1, 0, 0, 0, 0⟩)
    dice_count := (1, 1) }

def dudoWit2 : Dudo.DudoState :=
  { round := 0
    node_player_id := PlayerId.player 1
    prev_winner := PlayerId.player 0
    action_history := [Dudo.DudoAction.claim ⟨1, 0⟩]
    player_rolls := (⟨1, 0, 0, 0, 0, 0⟩, ⟨0, 1, 0, 0, 0, 0⟩)
    dice_count := (1, 1) }

/-- Dudo terminal after the roll (one ⚀ each, modelled as faces 0 and 1), the
claim 1×⚀ by player 0, and a dudo by player 1 that ties the count. -/
def dudoWit : Dudo.DudoState :=
  { round := 1
    node_player_id := PlayerId.player 1
    prev_winner := PlayerId.player 0
    action_history := []
    player_rolls := (⟨1, 0, 0, 0, 0, 0⟩, ⟨0, 1, 0, 0, 0, 0⟩)
    dice_count := (1, 0) }

def leducWit1 : Leduc.LeducState :=
  { next_player_id := PlayerId.player 0
    round := Leduc.LeducRound.preflop
    actions := []
    hole_cards := some (Leduc.LRank.jack, Leduc.LRank.queen)
    community_card := some Leduc.LRank.king
    bets := (1, 1)
    raise_count := 0 }

/-- Leduc terminal after the deal and an immediate fold by player 0. -/
def leducWit2 : Leduc.LeducState :=
  { next_player_id := PlayerId.player 1
    round := Leduc.LeducRound.folded (PlayerId.player 0)
    actions := [Leduc.LeducAction.fold]
    hole_cards := some (Leduc.LRank.jack, Leduc.LRank.queen)
    community_card := some Leduc.LRank.king
    bets := (1, 1)
    raise_count := 0 }

theorem reachable_terminal_payouts_zero_sum_witness :
    (∃ p : ℚ × ℚ, Kuhn.get_payouts kuhnWit3 = some p ∧ p.1 + p.2 = 0) ∧
    ((Dudo.get_payouts dudoWit).1 + (Dudo.get_payouts dudoWit).2 = 0) ∧
    (∃ p : ℚ × ℚ, Leduc.get_payouts leducWit2 = some p ∧ p.1 + p.2 = 0) := by
  have hk : Kuhn.KuhnReachable kuhnWit3 :=
    Kuhn.KuhnReachable.step kuhnWit2 kuhnWit3 Kuhn.KuhnAction.pass
      (Kuhn.KuhnReachable.step kuhnWit1 kuhnWit2 Kuhn.KuhnAction.bet
        (Kuhn.KuhnReachable.step Kuhn.new_root kuhnWit1
          (Kuhn.KuhnAction.chanceDealCards (Kuhn.Card.king, Kuhn.Card.jack))
          Kuhn.KuhnReachable.root (by decide) (by decide))
        (by decide) (by decide))
      (by decide) (by decide)
  have hd : Dudo.DudoReachable dudoWit :=
    Dudo.DudoReachable.step dudoWit2 dudoWit Dudo.DudoAction.dudo
      (Dudo.DudoReachable.step dudoWit1 dudoWit2
        (Dudo.DudoAction.claim ⟨1, 0⟩)
        (Dudo.DudoReachable.step Dudo.new_root dudoWit1
          (Dudo.DudoAction.chanceRollDices
            (⟨1, 0, 0, 0, 0, 0⟩, ⟨0, 1, 0, 0, 0, 0⟩))
          Dudo.DudoReachable.root (by decide) (by decide))
        (by decide) (by decide))
      (by decide) (by decide)
  have hl : Leduc.LeducReachable leducWit2 :=
    Leduc.LeducReachable.step leducWit1 leducWit2 Leduc.LeducAction.fold
      (Leduc.LeducReachable.step Leduc.new_root leducWit1
        (Leduc.LeducAction.chanceDealCards
          (Leduc.LRank.jack, Leduc.LRank.queen) Leduc.LRank.king)
        Leduc.LeducReachable.root (by decide) (by decide))
      (by decide) (by decide)
  exact ⟨reachable_terminal_payouts_zero_sum.1 kuhnWit3 hk (by decide),
    reachable_terminal_payouts_zero_sum.2.1 dudoWit hd (by decide),
    reachable_terminal_payouts_zero_sum.2.2 leducWit2 hl (by decide)⟩

end CfrRs
